import Mathlib

/-!
Verification development for the unconfirmed-block management and incremental
UTXO-indexing core of the bitcoin canister.

The definitions below are a shallow embedding of the Rust sources
(src/canister/src/utxoset.rs and src/canister/src/unstable_blocks.rs).
Components that the sources use but that are not part of the given code
(the blocktree module, the TxOutCache module, the UtxoSet state record, the
external address codec of the bitcoin crate, and the performance counter)
are modelled from the specification, each marked in its doc comment.

Machine integers of the source (u32 heights and thresholds, usize indices)
are modelled as Nat: none of the embedded code paths can overflow them in a
way the claims observe, and the single u32 subtraction performed by pop is
only evaluated on operands ordered so that Nat subtraction agrees with it.
-/

namespace Btc

/-- Identifier of a transaction or a block (a hash in the source, abstracted
to a number since hashing is performed by the upstream bitcoin crate). -/
abbrev Hash := Nat

/-- OutPoint: transaction identifier plus output index, uniquely naming a
spendable output (types.rs, external to the given sources). -/
structure OutPoint where
  txid : Hash
  vout : Nat
  deriving DecidableEq, Repr

/-- Modelled from the spec: the external address codec. An address value as
produced by the bitcoin crate conversion from a script; wellFormed records
whether the secondary string-validation pass accepts it (the crate has rare
scripts for which conversion succeeds yet the string is invalid). -/
structure Addr where
  name : Nat
  wellFormed : Bool
  deriving DecidableEq, Repr

/-- Modelled from the spec: output scripts, abstracted to the four behaviour
classes the ingestion engine distinguishes: resolvable to a valid address,
resolvable only to a malformed address string, not resolvable to any address,
and provably unspendable. -/
inductive Script where
  | toAddr (a : Nat)
  | toMalformedAddr (a : Nat)
  | unresolvable
  | opReturn
  deriving DecidableEq, Repr

/-- Modelled from the spec: Address from script conversion of the external
codec (returns none when the script maps to no known address type). -/
def address_from_script : Script → Option Addr
  | .toAddr a => some ⟨a, true⟩
  | .toMalformedAddr a => some ⟨a, false⟩
  | .unresolvable => none
  | .opReturn => none

/-- Modelled from the spec: the secondary validation pass (Address from
string) on the rendered address succeeds. -/
def address_from_str_ok (a : Addr) : Bool :=
  a.wellFormed

/-- Whether a script is provably unspendable (external codec; only such
outputs are skipped by output insertion). -/
def Script.is_provably_unspendable : Script → Bool
  | .opReturn => true
  | _ => false

/-- A transaction output: value and script (bitcoin crate TxOut). -/
structure TxOut where
  value : Nat
  script_pubkey : Script
  deriving DecidableEq, Repr

/-- A transaction. Inputs are reduced to the previous output they spend
(script witnesses play no role in this core); txid abstracts the hash the
bitcoin crate computes over the transaction. -/
structure Transaction where
  txid : Hash
  input : List OutPoint
  output : List TxOut
  deriving DecidableEq, Repr

/-- The null outpoint marking the single input of a coinbase transaction
(all-zero txid and maximal u32 index in the bitcoin crate). -/
def nullOutPoint : OutPoint :=
  ⟨0, 4294967295⟩

/-- Coinbase test of the bitcoin crate: exactly one input and it is null. -/
def Transaction.is_coin_base (tx : Transaction) : Bool :=
  tx.input = [nullOutPoint]

/-- The fixed allow-list of historically duplicated transaction ids
(utxoset.rs, DUPLICATE_TX_IDS), as the numeric value of the two hashes. -/
def DUPLICATE_TX_IDS : List Hash :=
  [0xd5d27987d2a3dfc724e359870c6644b40e497bdc0589a033220fe15429d88599,
   0xe3bf3d07d4b0375638d5f1db5255fe07ba2c4cb067cd81b84ee974b6585fb468]

/-- Modelled from the spec: the persistent UtxoSet record (state.rs is not
part of the given sources; the fields are the ones utxoset.rs uses). Both
stable maps are modelled as association lists: utxos maps an OutPoint to the
output and its creation height, address_to_outpoints is the set of composite
keys (address, height, outpoint) of the address index. -/
structure UtxoSet where
  utxos : List (OutPoint × (TxOut × Nat))
  address_to_outpoints : List (Addr × Nat × OutPoint)
  deriving DecidableEq, Repr

/-- Map lookup on the utxos association list (first matching key). -/
def lookupUtxo : List (OutPoint × (TxOut × Nat)) → OutPoint → Option (TxOut × Nat)
  | [], _ => none
  | (k, v) :: rest, op => if k = op then some v else lookupUtxo rest op

/-- Map removal on the utxos association list (first matching key). -/
def removeUtxo : List (OutPoint × (TxOut × Nat)) → OutPoint → List (OutPoint × (TxOut × Nat))
  | [], _ => []
  | (k, v) :: rest, op => if k = op then rest else (k, v) :: removeUtxo rest op

/-- Map insertion on the utxos association list; the boolean reports whether
the key was already present (overwritten in place), mirroring the is-some
test the source performs on the result of BTreeMap insert. -/
def insertUtxoEntry : List (OutPoint × (TxOut × Nat)) → OutPoint → TxOut × Nat →
    List (OutPoint × (TxOut × Nat)) × Bool
  | [], op, v => ([(op, v)], false)
  | (k, w) :: rest, op, v =>
    if k = op then ((k, v) :: rest, true)
    else
      let r := insertUtxoEntry rest op v
      ((k, w) :: r.1, r.2)

/-- Membership in the address index. -/
def memAddrKey : List (Addr × Nat × OutPoint) → Addr × Nat × OutPoint → Bool
  | [], _ => false
  | k :: rest, key => if k = key then true else memAddrKey rest key

/-- Insertion into the address index (keys map to an empty marker, so
inserting an existing key leaves the index unchanged). -/
def insertAddrKey (l : List (Addr × Nat × OutPoint)) (key : Addr × Nat × OutPoint) :
    List (Addr × Nat × OutPoint) :=
  if memAddrKey l key then l else l ++ [key]

/-- Removal from the address index; the boolean reports whether the key was
found, mirroring the is-some test of the source. -/
def removeAddrKey : List (Addr × Nat × OutPoint) → Addr × Nat × OutPoint →
    List (Addr × Nat × OutPoint) × Bool
  | [], _ => ([], false)
  | k :: rest, key =>
    if k = key then (rest, true)
    else
      let r := removeAddrKey rest key
      (k :: r.1, r.2)

/-- Result of a time-sliced operation (types.rs Slicing). -/
inductive Slicing (α : Type) where
  | Paused (x : α)
  | Done
  deriving DecidableEq, Repr

/-- Inserts a UTXO at a given height into the given UTXO set
(utxoset.rs insert_utxo). The address-index entry is added first, only when
the script resolves to an address whose string passes the secondary
validation; then the outpoint is inserted, and overwriting an existing
outpoint is a fatal fault (modelled as none) unless the transaction id is in
the duplicate allow-list. -/
def insert_utxo (utxo_set : UtxoSet) (outpoint : OutPoint) (output : TxOut)
    (height : Nat) : Option UtxoSet :=
  let s1 :=
    match address_from_script output.script_pubkey with
    | some address =>
      if address_from_str_ok address then
        { utxo_set with
            address_to_outpoints :=
              insertAddrKey utxo_set.address_to_outpoints (address, height, outpoint) }
      else utxo_set
    | none => utxo_set
  let r := insertUtxoEntry s1.utxos outpoint (output, height)
  if r.2 && !(DUPLICATE_TX_IDS.contains outpoint.txid) then none
  else some { s1 with utxos := r.1 }

/-- Body of one iteration of the input-removal loop of remove_inputs
(utxoset.rs): the spent outpoint must be present in the UTXO map (none
models the fatal fault otherwise); when its script resolves to an address
the paired address-index entry must also be present and is removed. -/
def remove_input_step (utxo_set : UtxoSet) (input : OutPoint) : Option UtxoSet :=
  match lookupUtxo utxo_set.utxos input with
  | some (txout, height) =>
    let utxosRest := removeUtxo utxo_set.utxos input
    match address_from_script txout.script_pubkey with
    | some address =>
      let r := removeAddrKey utxo_set.address_to_outpoints (address, height, input)
      if r.2 then some { utxo_set with utxos := utxosRest, address_to_outpoints := r.1 }
      else none
    | none => some { utxo_set with utxos := utxosRest }
  | none => none

/-- Input-removal loop (utxoset.rs remove_inputs). The performance counter
of the runtime is modelled by a budget: the counter threshold test performed
before each item corresponds to the budget having reached zero, and one
budget unit is consumed per processed item, so a budget value enumerates
exactly the possible pause points of one invocation. Returns the new state,
the remaining budget and the slicing outcome; none is a fatal fault. -/
def remove_inputs_go (utxo_set : UtxoSet) (inputs : List OutPoint) (input_idx : Nat)
    (budget : Nat) : Option ((UtxoSet × Nat) × Slicing Nat) :=
  match inputs, budget with
  | [], b => some ((utxo_set, b), .Done)
  | _ :: _, 0 => some ((utxo_set, 0), .Paused input_idx)
  | input :: rest, b + 1 =>
    match remove_input_step utxo_set input with
    | some s1 => remove_inputs_go s1 rest (input_idx + 1) b
    | none => none

/-- Iterates over transaction inputs starting from start_idx and removes
them from the UTXO set (utxoset.rs remove_inputs); coinbase transactions
skip input removal entirely. -/
def remove_inputs (utxo_set : UtxoSet) (tx : Transaction) (start_idx : Nat)
    (budget : Nat) : Option ((UtxoSet × Nat) × Slicing Nat) :=
  if tx.is_coin_base then some ((utxo_set, budget), .Done)
  else remove_inputs_go utxo_set (tx.input.drop start_idx) start_idx budget

/-- Body of one iteration of the output-insertion loop of insert_outputs
(utxoset.rs): provably unspendable outputs are skipped, the rest are
inserted keyed by (txid, vout). -/
def insert_output_step (utxo_set : UtxoSet) (txid : Hash) (vout : Nat) (output : TxOut)
    (height : Nat) : Option UtxoSet :=
  if output.script_pubkey.is_provably_unspendable then some utxo_set
  else insert_utxo utxo_set ⟨txid, vout⟩ output height

/-- Output-insertion loop (utxoset.rs insert_outputs), budget-instrumented
exactly like remove_inputs_go. -/
def insert_outputs_go (utxo_set : UtxoSet) (txid : Hash) (outs : List TxOut) (vout : Nat)
    (height : Nat) (budget : Nat) : Option ((UtxoSet × Nat) × Slicing Nat) :=
  match outs, budget with
  | [], b => some ((utxo_set, b), .Done)
  | _ :: _, 0 => some ((utxo_set, 0), .Paused vout)
  | output :: rest, b + 1 =>
    match insert_output_step utxo_set txid vout output height with
    | some s1 => insert_outputs_go s1 txid rest (vout + 1) height b
    | none => none

/-- Iterates over transaction outputs starting from start_idx and inserts
them into the UTXO set (utxoset.rs insert_outputs). -/
def insert_outputs (utxo_set : UtxoSet) (tx : Transaction) (height : Nat)
    (start_idx : Nat) (budget : Nat) : Option ((UtxoSet × Nat) × Slicing Nat) :=
  insert_outputs_go utxo_set tx.txid (tx.output.drop start_idx) start_idx height budget

/-- Ingests a transaction into the UTXO set at the given height
(utxoset.rs ingest_tx_with_slicing). The budget is shared by the two phases
(the performance counter is monotone within one invocation). A pause during
input removal yields the cursor (input index, 0); a pause during output
insertion yields (total input count, output index). -/
def ingest_tx_with_slicing (utxo_set : UtxoSet) (tx : Transaction) (height : Nat)
    (start_input_idx : Nat) (start_output_idx : Nat) (budget : Nat) :
    Option (UtxoSet × Slicing (Nat × Nat)) :=
  match remove_inputs utxo_set tx start_input_idx budget with
  | none => none
  | some ((s1, _), .Paused input_idx) => some (s1, .Paused (input_idx, 0))
  | some ((s1, b1), .Done) =>
    match insert_outputs s1 tx height start_output_idx b1 with
    | none => none
    | some ((s2, _), .Paused output_idx) => some (s2, .Paused (tx.input.length, output_idx))
    | some ((s2, _), .Done) => some (s2, .Done)

/-- One uninterrupted ingestion call from cursor (0, 0): the budget covers
every item the two loops can visit, so the counter threshold is never
reached and no pause occurs. -/
def ingest_single (utxo_set : UtxoSet) (tx : Transaction) (height : Nat) :
    Option (UtxoSet × Slicing (Nat × Nat)) :=
  ingest_tx_with_slicing utxo_set tx height 0 0 (tx.input.length + tx.output.length)

/-- Fold of remove_input_step over a whole input list, without any budget:
the reference semantics of a run of input removal that never pauses. -/
def remove_all : UtxoSet → List OutPoint → Option UtxoSet
  | s, [] => some s
  | s, input :: rest =>
    match remove_input_step s input with
    | some s1 => remove_all s1 rest
    | none => none

/-- Fold of insert_output_step over a whole output list, threading the
output index, without any budget. -/
def insert_all : UtxoSet → Hash → List TxOut → Nat → Nat → Option UtxoSet
  | s, _, [], _, _ => some s
  | s, txid, out :: rest, vout, height =>
    match insert_output_step s txid vout out height with
    | some s1 => insert_all s1 txid rest (vout + 1) height
    | none => none

/-- The driver mandated by the resumability contract: re-invoke
ingest_tx_with_slicing with exactly the returned cursor until Done, one
budget per invocation. The outer none means the budget list was exhausted
before Done; some none is a fatal fault during some invocation; some (some s)
is the final state at Done. -/
def run_slicing (tx : Transaction) (height : Nat) :
    List Nat → UtxoSet → Nat → Nat → Option (Option UtxoSet)
  | [], _, _, _ => none
  | b :: bs, s, i, j =>
    match ingest_tx_with_slicing s tx height i j b with
    | none => some none
    | some (s1, .Done) => some (some s1)
    | some (s1, .Paused (i1, j1)) => run_slicing tx height bs s1 i1 j1

/-! Characterization of the budget-instrumented loops by the budget-free
folds: a run either completes the whole list (budget at least the number of
remaining items) or processes exactly budget items and pauses at the
corresponding index. -/

theorem remove_inputs_go_char :
    ∀ (inputs : List OutPoint) (s : UtxoSet) (idx b : Nat),
    remove_inputs_go s inputs idx b =
      if inputs.length ≤ b then
        (remove_all s inputs).map (fun s1 => ((s1, b - inputs.length), Slicing.Done))
      else
        (remove_all s (inputs.take b)).map (fun s1 => ((s1, 0), Slicing.Paused (idx + b)))
  | [], s, idx, b => by simp [remove_inputs_go, remove_all]
  | input :: rest, s, idx, 0 => by simp [remove_inputs_go, remove_all]
  | input :: rest, s, idx, b + 1 => by
    simp only [remove_inputs_go]
    cases hstep : remove_input_step s input with
    | none =>
      simp only [List.length_cons, List.take_succ_cons, remove_all, hstep]
      split <;> rfl
    | some s1 =>
      dsimp only
      rw [remove_inputs_go_char rest s1 (idx + 1) b]
      simp only [List.length_cons, List.take_succ_cons, remove_all, hstep,
        Nat.add_le_add_iff_right, Nat.succ_sub_succ]
      by_cases hle : rest.length ≤ b
      · rw [if_pos hle, if_pos hle]
      · rw [if_neg hle, if_neg hle]
        have : idx + 1 + b = idx + (b + 1) := by omega
        rw [this]

theorem insert_outputs_go_char :
    ∀ (outs : List TxOut) (s : UtxoSet) (txid : Hash) (vout height b : Nat),
    insert_outputs_go s txid outs vout height b =
      if outs.length ≤ b then
        (insert_all s txid outs vout height).map
          (fun s1 => ((s1, b - outs.length), Slicing.Done))
      else
        (insert_all s txid (outs.take b) vout height).map
          (fun s1 => ((s1, 0), Slicing.Paused (vout + b)))
  | [], s, txid, vout, height, b => by simp [insert_outputs_go, insert_all]
  | out :: rest, s, txid, vout, height, 0 => by simp [insert_outputs_go, insert_all]
  | out :: rest, s, txid, vout, height, b + 1 => by
    simp only [insert_outputs_go]
    cases hstep : insert_output_step s txid vout out height with
    | none =>
      simp only [List.length_cons, List.take_succ_cons, insert_all, hstep]
      split <;> rfl
    | some s1 =>
      dsimp only
      rw [insert_outputs_go_char rest s1 txid (vout + 1) height b]
      simp only [List.length_cons, List.take_succ_cons, insert_all, hstep,
        Nat.add_le_add_iff_right, Nat.succ_sub_succ]
      by_cases hle : rest.length ≤ b
      · rw [if_pos hle, if_pos hle]
      · rw [if_neg hle, if_neg hle]
        have : vout + 1 + b = vout + (b + 1) := by omega
        rw [this]

theorem remove_all_append :
    ∀ (l1 l2 : List OutPoint) (s : UtxoSet),
    remove_all s (l1 ++ l2) = (remove_all s l1).bind (fun s1 => remove_all s1 l2)
  | [], l2, s => by simp [remove_all]
  | input :: rest, l2, s => by
    simp only [List.cons_append, remove_all]
    cases hstep : remove_input_step s input with
    | none => simp
    | some s1 => simp [remove_all_append rest l2 s1]

theorem insert_all_append :
    ∀ (l1 l2 : List TxOut) (s : UtxoSet) (txid : Hash) (vout height : Nat),
    insert_all s txid (l1 ++ l2) vout height =
      (insert_all s txid l1 vout height).bind
        (fun s1 => insert_all s1 txid l2 (vout + l1.length) height)
  | [], l2, s, txid, vout, height => by simp [insert_all]
  | out :: rest, l2, s, txid, vout, height => by
    simp only [List.cons_append, insert_all]
    cases hstep : insert_output_step s txid vout out height with
    | none => simp
    | some s1 =>
      dsimp only
      have h0 : rest.append l2 = rest ++ l2 := rfl
      rw [h0, insert_all_append rest l2 s1 txid (vout + 1) height]
      simp only [Option.some_bind, List.length_cons]
      have h1 : vout + 1 + rest.length = vout + (rest.length + 1) := by omega
      rw [h1]

/-- The inputs actually visited by the input phase when starting at index
i: none for a coinbase transaction, the tail of the input list otherwise. -/
def ingestInputs (tx : Transaction) (i : Nat) : List OutPoint :=
  if tx.is_coin_base then [] else tx.input.drop i
/-- Closed-form description of one invocation of ingest_tx_with_slicing in
terms of the budget-free folds. -/
def ingest_model (s : UtxoSet) (tx : Transaction) (height i j b : Nat) :
    Option (UtxoSet × Slicing (Nat × Nat)) :=
  if (ingestInputs tx i).length ≤ b then
    match remove_all s (ingestInputs tx i) with
    | none => none
    | some s1 =>
      if (tx.output.drop j).length ≤ b - (ingestInputs tx i).length then
        (insert_all s1 tx.txid (tx.output.drop j) j height).map
          (fun s2 => (s2, Slicing.Done))
      else
        (insert_all s1 tx.txid
            ((tx.output.drop j).take (b - (ingestInputs tx i).length)) j height).map
          (fun s2 => (s2, Slicing.Paused (tx.input.length, j + (b - (ingestInputs tx i).length))))
  else
    (remove_all s ((ingestInputs tx i).take b)).map
      (fun s1 => (s1, Slicing.Paused (i + b, 0)))

theorem ingestInputs_eq_nil (tx : Transaction) (i : Nat) (hcb : tx.is_coin_base = true) :
    ingestInputs tx i = [] := by
  simp [ingestInputs, hcb]

theorem ingestInputs_eq_drop (tx : Transaction) (i : Nat) (hcb : ¬tx.is_coin_base = true) :
    ingestInputs tx i = tx.input.drop i := by
  simp [ingestInputs, hcb]

theorem ingest_char (s : UtxoSet) (tx : Transaction) (height i j b : Nat) :
    ingest_tx_with_slicing s tx height i j b = ingest_model s tx height i j b := by
  unfold ingest_tx_with_slicing remove_inputs insert_outputs ingest_model
  by_cases hcb : tx.is_coin_base = true
  · rw [ingestInputs_eq_nil tx i hcb, if_pos hcb]
    dsimp only [List.length_nil, remove_all]
    rw [if_pos (Nat.zero_le b), Nat.sub_zero, insert_outputs_go_char]
    by_cases hout : (tx.output.drop j).length ≤ b
    · simp only [if_pos hout]
      cases hins : insert_all s tx.txid (tx.output.drop j) j height <;> rfl
    · simp only [if_neg hout]
      cases hins : insert_all s tx.txid ((tx.output.drop j).take b) j height <;> rfl
  · rw [ingestInputs_eq_drop tx i hcb, if_neg hcb, remove_inputs_go_char]
    by_cases hin : (tx.input.drop i).length ≤ b
    · simp only [if_pos hin]
      cases hrem : remove_all s (tx.input.drop i) with
      | none => rfl
      | some s1 =>
        simp only [Option.map_some']
        rw [insert_outputs_go_char]
        by_cases hout : (tx.output.drop j).length ≤ b - (tx.input.drop i).length
        · simp only [if_pos hout]
          cases hins : insert_all s1 tx.txid (tx.output.drop j) j height <;> rfl
        · simp only [if_neg hout]
          cases hins :
              insert_all s1 tx.txid
                ((tx.output.drop j).take (b - (tx.input.drop i).length)) j height <;> rfl
    · simp only [if_neg hin]
      cases hrem : remove_all s ((tx.input.drop i).take b) <;> rfl

/-- Budget-free reference semantics of ingesting a transaction from cursor
(i, j): remove all remaining inputs, then insert all remaining outputs. -/
def ingest_tx_pure (s : UtxoSet) (tx : Transaction) (height i j : Nat) : Option UtxoSet :=
  (remove_all s (ingestInputs tx i)).bind
    (fun s1 => insert_all s1 tx.txid (tx.output.drop j) j height)

/-- Cursors that can actually be observed by a caller that starts at (0, 0)
and resumes at returned cursors: the output coordinate is nonzero only once
the input phase can no longer visit anything. -/
def ValidCursor (tx : Transaction) (i j : Nat) : Prop :=
  j = 0 ∨ i = tx.input.length ∨ tx.is_coin_base = true

/-- A faulting invocation faults in the reference semantics as well. -/
theorem ingest_none_pure (s : UtxoSet) (tx : Transaction) (height i j b : Nat)
    (h : ingest_tx_with_slicing s tx height i j b = none) :
    ingest_tx_pure s tx height i j = none := by
  rw [ingest_char] at h
  unfold ingest_model at h
  unfold ingest_tx_pure
  by_cases hin : (ingestInputs tx i).length ≤ b
  · rw [if_pos hin] at h
    cases hrem : remove_all s (ingestInputs tx i) with
    | none => simp [hrem]
    | some s1 =>
      rw [hrem] at h
      dsimp only at h
      simp only [Option.some_bind, hrem]
      by_cases hout : (tx.output.drop j).length ≤ b - (ingestInputs tx i).length
      · rw [if_pos hout] at h
        cases hins : insert_all s1 tx.txid (tx.output.drop j) j height with
        | none => rfl
        | some s2 => rw [hins] at h; exact absurd h (by simp)
      · rw [if_neg hout] at h
        cases hins :
            insert_all s1 tx.txid ((tx.output.drop j).take (b - (ingestInputs tx i).length))
              j height with
        | none =>
          have hsplit := insert_all_append
            ((tx.output.drop j).take (b - (ingestInputs tx i).length))
            ((tx.output.drop j).drop (b - (ingestInputs tx i).length)) s1 tx.txid j height
          rw [List.take_append_drop] at hsplit
          rw [hsplit, hins]
          rfl
        | some s2 => rw [hins] at h; exact absurd h (by simp)
  · rw [if_neg hin] at h
    cases hrem : remove_all s ((ingestInputs tx i).take b) with
    | none =>
      have hsplit := remove_all_append ((ingestInputs tx i).take b)
        ((ingestInputs tx i).drop b) s
      rw [List.take_append_drop] at hsplit
      rw [hsplit, hrem]
      rfl
    | some s1 => rw [hrem] at h; exact absurd h (by simp)

/-- A completed invocation computes exactly the reference semantics. -/
theorem ingest_done_pure (s : UtxoSet) (tx : Transaction) (height i j b : Nat)
    (s1 : UtxoSet) (h : ingest_tx_with_slicing s tx height i j b = some (s1, Slicing.Done)) :
    ingest_tx_pure s tx height i j = some s1 := by
  rw [ingest_char] at h
  unfold ingest_model at h
  unfold ingest_tx_pure
  by_cases hin : (ingestInputs tx i).length ≤ b
  · rw [if_pos hin] at h
    cases hrem : remove_all s (ingestInputs tx i) with
    | none => rw [hrem] at h; exact absurd h (by simp)
    | some sA =>
      rw [hrem] at h
      dsimp only at h
      simp only [Option.some_bind, hrem]
      by_cases hout : (tx.output.drop j).length ≤ b - (ingestInputs tx i).length
      · rw [if_pos hout] at h
        cases hins : insert_all sA tx.txid (tx.output.drop j) j height with
        | none => rw [hins] at h; exact absurd h (by simp)
        | some s2 =>
          rw [hins] at h
          simp only [Option.map_some', Option.some.injEq, Prod.mk.injEq] at h
          rw [h.1]
      · rw [if_neg hout] at h
        cases hins :
            insert_all sA tx.txid ((tx.output.drop j).take (b - (ingestInputs tx i).length))
              j height with
        | none => rw [hins] at h; exact absurd h (by simp)
        | some s2 => rw [hins] at h; simp at h
  · rw [if_neg hin] at h
    cases hrem : remove_all s ((ingestInputs tx i).take b) with
    | none => rw [hrem] at h; exact absurd h (by simp)
    | some sA => rw [hrem] at h; simp at h

/-- A paused invocation leaves a valid cursor, and resuming from it denotes
the same reference semantics as the original cursor did. -/
theorem ingest_paused_pure (s : UtxoSet) (tx : Transaction) (height i j b : Nat)
    (s1 : UtxoSet) (i1 j1 : Nat) (hv : ValidCursor tx i j)
    (h : ingest_tx_with_slicing s tx height i j b = some (s1, Slicing.Paused (i1, j1))) :
    ValidCursor tx i1 j1 ∧
      ingest_tx_pure s1 tx height i1 j1 = ingest_tx_pure s tx height i j := by
  rw [ingest_char] at h
  unfold ingest_model at h
  by_cases hin : (ingestInputs tx i).length ≤ b
  · rw [if_pos hin] at h
    cases hrem : remove_all s (ingestInputs tx i) with
    | none => rw [hrem] at h; exact absurd h (by simp)
    | some sA =>
      rw [hrem] at h
      dsimp only at h
      by_cases hout : (tx.output.drop j).length ≤ b - (ingestInputs tx i).length
      · rw [if_pos hout] at h
        cases hins : insert_all sA tx.txid (tx.output.drop j) j height with
        | none => rw [hins] at h; exact absurd h (by simp)
        | some s2 => rw [hins] at h; simp at h
      · rw [if_neg hout] at h
        cases hins :
            insert_all sA tx.txid ((tx.output.drop j).take (b - (ingestInputs tx i).length))
              j height with
        | none => rw [hins] at h; exact absurd h (by simp)
        | some s2 =>
          rw [hins] at h
          simp only [Option.map_some', Option.some.injEq, Prod.mk.injEq,
            Slicing.Paused.injEq] at h
          obtain ⟨hs, hi1, hj1⟩ := h
          subst hs hi1 hj1
          refine ⟨Or.inr (Or.inl rfl), ?_⟩
          unfold ingest_tx_pure
          have hnin : ingestInputs tx tx.input.length = [] := by
            unfold ingestInputs
            split
            · rfl
            · exact List.drop_length tx.input
          rw [hnin, hrem]
          dsimp only [remove_all]
          simp only [Option.some_bind]
          have hsplit := insert_all_append
            ((tx.output.drop j).take (b - (ingestInputs tx i).length))
            ((tx.output.drop j).drop (b - (ingestInputs tx i).length)) sA tx.txid j height
          rw [List.take_append_drop] at hsplit
          rw [hsplit, hins]
          simp only [Option.some_bind]
          have hlen : ((tx.output.drop j).take (b - (ingestInputs tx i).length)).length =
              b - (ingestInputs tx i).length := by
            rw [List.length_take]
            omega
          rw [hlen]
          have hdd : (tx.output.drop j).drop (b - (ingestInputs tx i).length) =
              tx.output.drop (j + (b - (ingestInputs tx i).length)) := by
            rw [List.drop_drop]
          rw [hdd]
  · rw [if_neg hin] at h
    cases hrem : remove_all s ((ingestInputs tx i).take b) with
    | none => rw [hrem] at h; exact absurd h (by simp)
    | some sA =>
      rw [hrem] at h
      simp only [Option.map_some', Option.some.injEq, Prod.mk.injEq,
        Slicing.Paused.injEq] at h
      obtain ⟨hs, hi1, hj1⟩ := h
      subst hs hi1 hj1
      have hcb : ¬tx.is_coin_base = true := by
        intro hc
        rw [ingestInputs_eq_nil tx i hc] at hin
        simp at hin
      have hj : j = 0 := by
        rcases hv with h0 | hlen | hc
        · exact h0
        · exfalso
          rw [ingestInputs_eq_drop tx i hcb, hlen, List.drop_length] at hin
          simp at hin
        · exact absurd hc hcb
      subst hj
      refine ⟨Or.inl rfl, ?_⟩
      unfold ingest_tx_pure
      rw [ingestInputs_eq_drop tx (i + b) hcb, ingestInputs_eq_drop tx i hcb]
      rw [ingestInputs_eq_drop tx i hcb] at hrem
      have hsplit := remove_all_append ((tx.input.drop i).take b) ((tx.input.drop i).drop b) s
      rw [List.take_append_drop] at hsplit
      rw [hsplit, hrem]
      simp only [Option.some_bind]
      have hdd : (tx.input.drop i).drop b = tx.input.drop (i + b) := by
        rw [List.drop_drop]
      rw [hdd]

/-- Driving the sliced ingestion from any valid cursor until it reports Done
or faults computes exactly the reference semantics of that cursor. -/
theorem run_slicing_pure (tx : Transaction) (height : Nat) :
    ∀ (bs : List Nat) (s : UtxoSet) (i j : Nat) (r : Option UtxoSet),
    ValidCursor tx i j →
    run_slicing tx height bs s i j = some r →
    r = ingest_tx_pure s tx height i j
  | [], s, i, j, r, hv, h => by simp [run_slicing] at h
  | b :: bs, s, i, j, r, hv, h => by
    unfold run_slicing at h
    cases hing : ingest_tx_with_slicing s tx height i j b with
    | none =>
      rw [hing] at h
      simp only [Option.some.injEq] at h
      rw [← h, ingest_none_pure s tx height i j b hing]
    | some p =>
      obtain ⟨s1, sl⟩ := p
      cases sl with
      | Done =>
        rw [hing] at h
        simp only [Option.some.injEq] at h
        rw [← h, ingest_done_pure s tx height i j b s1 hing]
      | Paused c =>
        obtain ⟨i1, j1⟩ := c
        rw [hing] at h
        have hp := ingest_paused_pure s tx height i j b s1 i1 j1 hv hing
        rw [run_slicing_pure tx height bs s1 i1 j1 r hp.1 h, hp.2]

/-- The single uninterrupted call also computes the reference semantics of
cursor (0, 0), and it reports Done. -/
theorem ingest_single_pure (s : UtxoSet) (tx : Transaction) (height : Nat) :
    ingest_single s tx height =
      (ingest_tx_pure s tx height 0 0).map (fun s1 => (s1, Slicing.Done)) := by
  have hlen : (ingestInputs tx 0).length ≤ tx.input.length := by
    unfold ingestInputs
    split
    · simp
    · simp
  unfold ingest_single
  rw [ingest_char]
  unfold ingest_model ingest_tx_pure
  rw [if_pos (by omega : (ingestInputs tx 0).length ≤ tx.input.length + tx.output.length)]
  cases hrem : remove_all s (ingestInputs tx 0) with
  | none => rfl
  | some sA =>
    dsimp only
    rw [if_pos (by simp [List.length_drop]; omega :
      (tx.output.drop 0).length ≤ tx.input.length + tx.output.length - (ingestInputs tx 0).length)]
    simp only [Option.some_bind]

/-- Claim C4. For every transaction, height, and choice of pause points,
re-invoking ingest_tx_with_slicing with exactly the cursor returned by each
Paused result until Done is observed produces a final UTXO mapping and
address index identical to ingesting the same transaction in a single
uninterrupted call from cursor (0, 0); a fault likewise occurs in the
sliced run exactly when the uninterrupted call faults. -/
theorem claim_C4 (tx : Transaction) (height : Nat) (budgets : List Nat) (s : UtxoSet)
    (r : Option UtxoSet) (h : run_slicing tx height budgets s 0 0 = some r) :
    ingest_single s tx height = r.map (fun s1 => (s1, Slicing.Done)) := by
  rw [ingest_single_pure, run_slicing_pure tx height budgets s 0 0 r (Or.inl rfl) h]

/-- Witness for claim C4: a two-output transaction ingested across two
invocations of budget one reaches the same final state as one uninterrupted
call. -/
theorem claim_C4_witness :
    ingest_single ⟨[], []⟩ ⟨7, [], [⟨10, Script.toAddr 3⟩, ⟨20, Script.unresolvable⟩]⟩ 0 =
      (some (⟨[(⟨7, 0⟩, (⟨10, Script.toAddr 3⟩, 0)), (⟨7, 1⟩, (⟨20, Script.unresolvable⟩, 0))],
          [(⟨3, true⟩, 0, ⟨7, 0⟩)]⟩ : UtxoSet)).map (fun s1 => (s1, Slicing.Done)) :=
  claim_C4 ⟨7, [], [⟨10, Script.toAddr 3⟩, ⟨20, Script.unresolvable⟩]⟩ 0 [1, 1] ⟨[], []⟩
    (some ⟨[(⟨7, 0⟩, (⟨10, Script.toAddr 3⟩, 0)), (⟨7, 1⟩, (⟨20, Script.unresolvable⟩, 0))],
      [(⟨3, true⟩, 0, ⟨7, 0⟩)]⟩) (by decide)

/-- Claim C8. A pause during input removal at input index i makes
ingest_tx_with_slicing return Paused (i, 0) with the state produced by the
input phase alone, so no output has been inserted; a pause during output
insertion at index j makes it return Paused (n, j) where n is the total
input count of the transaction; and a coinbase transaction skips the
input-removal phase entirely, leaving state and budget untouched. -/
theorem claim_C8 (utxo_set : UtxoSet) (tx : Transaction) (height : Nat)
    (start_in start_out budget : Nat) :
    (∀ s1 b1 i, remove_inputs utxo_set tx start_in budget = some ((s1, b1), Slicing.Paused i) →
       ingest_tx_with_slicing utxo_set tx height start_in start_out budget =
         some (s1, Slicing.Paused (i, 0))) ∧
    (∀ s1 b1 s2 b2 j, remove_inputs utxo_set tx start_in budget = some ((s1, b1), Slicing.Done) →
       insert_outputs s1 tx height start_out b1 = some ((s2, b2), Slicing.Paused j) →
       ingest_tx_with_slicing utxo_set tx height start_in start_out budget =
         some (s2, Slicing.Paused (tx.input.length, j))) ∧
    (tx.is_coin_base = true →
       remove_inputs utxo_set tx start_in budget = some ((utxo_set, budget), Slicing.Done)) := by
  refine ⟨?_, ?_, ?_⟩
  · intro s1 b1 i h
    simp [ingest_tx_with_slicing, h]
  · intro s1 b1 s2 b2 j h1 h2
    simp [ingest_tx_with_slicing, h1, h2]
  · intro hcb
    simp [remove_inputs, hcb]

/-- Witness for claim C8: a two-input transaction paused after one input
yields cursor (1, 0); the same transaction paused at the start of output
insertion yields cursor (2, 0); a coinbase transaction skips input
removal. -/
theorem claim_C8_witness :
    (ingest_tx_with_slicing
        ⟨[(⟨1, 0⟩, (⟨5, Script.unresolvable⟩, 0)), (⟨2, 0⟩, (⟨6, Script.unresolvable⟩, 0))], []⟩
        ⟨9, [⟨1, 0⟩, ⟨2, 0⟩], [⟨7, Script.unresolvable⟩]⟩ 3 0 0 1 =
      some (⟨[(⟨2, 0⟩, (⟨6, Script.unresolvable⟩, 0))], []⟩, Slicing.Paused (1, 0))) ∧
    (ingest_tx_with_slicing
        ⟨[(⟨1, 0⟩, (⟨5, Script.unresolvable⟩, 0)), (⟨2, 0⟩, (⟨6, Script.unresolvable⟩, 0))], []⟩
        ⟨9, [⟨1, 0⟩, ⟨2, 0⟩], [⟨7, Script.unresolvable⟩]⟩ 3 0 0 2 =
      some (⟨[], []⟩, Slicing.Paused (2, 0))) ∧
    (remove_inputs ⟨[], []⟩ ⟨9, [nullOutPoint], []⟩ 0 5 =
      some ((⟨[], []⟩, 5), Slicing.Done)) := by
  refine ⟨?_, ?_, ?_⟩
  · exact (claim_C8
      ⟨[(⟨1, 0⟩, (⟨5, Script.unresolvable⟩, 0)), (⟨2, 0⟩, (⟨6, Script.unresolvable⟩, 0))], []⟩
      ⟨9, [⟨1, 0⟩, ⟨2, 0⟩], [⟨7, Script.unresolvable⟩]⟩ 3 0 0 1).1
      ⟨[(⟨2, 0⟩, (⟨6, Script.unresolvable⟩, 0))], []⟩ 0 1 (by decide)
  · exact (claim_C8
      ⟨[(⟨1, 0⟩, (⟨5, Script.unresolvable⟩, 0)), (⟨2, 0⟩, (⟨6, Script.unresolvable⟩, 0))], []⟩
      ⟨9, [⟨1, 0⟩, ⟨2, 0⟩], [⟨7, Script.unresolvable⟩]⟩ 3 0 0 2).2.1
      ⟨[], []⟩ 0 ⟨[], []⟩ 0 0 (by decide) (by decide)
  · exact (claim_C8 ⟨[], []⟩ ⟨9, [nullOutPoint], []⟩ 0 0 0 5).2.2 (by decide)

/-! Basic lemmas on the association-list maps. -/

theorem insertUtxoEntry_of_present (m : List (OutPoint × (TxOut × Nat))) (op : OutPoint)
    (v : TxOut × Nat) (h : (lookupUtxo m op).isSome) :
    (insertUtxoEntry m op v).2 = true ∧
      lookupUtxo (insertUtxoEntry m op v).1 op = some v := by
  induction m with
  | nil => simp [lookupUtxo] at h
  | cons kv rest ih =>
    obtain ⟨k, w⟩ := kv
    by_cases hk : k = op
    · subst hk
      simp [insertUtxoEntry, lookupUtxo]
    · simp only [lookupUtxo, if_neg hk] at h
      simp only [insertUtxoEntry, if_neg hk]
      exact ⟨(ih h).1, by simpa [lookupUtxo, hk] using (ih h).2⟩

theorem insertUtxoEntry_of_absent (m : List (OutPoint × (TxOut × Nat))) (op : OutPoint)
    (v : TxOut × Nat) (h : lookupUtxo m op = none) :
    insertUtxoEntry m op v = (m ++ [(op, v)], false) := by
  induction m with
  | nil => simp [insertUtxoEntry]
  | cons kv rest ih =>
    obtain ⟨k, w⟩ := kv
    by_cases hk : k = op
    · simp [lookupUtxo, hk] at h
    · simp only [lookupUtxo, if_neg hk] at h
      simp [insertUtxoEntry, if_neg hk, ih h]

/-- The utxos component of the intermediate state built by insert_utxo
before the outpoint insertion is the original utxos map, and the index is
either unchanged or extended with a single key for this outpoint. -/
theorem lookupUtxo_append (A B : List (OutPoint × (TxOut × Nat))) (op : OutPoint) :
    lookupUtxo (A ++ B) op =
      match lookupUtxo A op with
      | some v => some v
      | none => lookupUtxo B op := by
  induction A with
  | nil => simp [lookupUtxo]
  | cons kv rest ih =>
    obtain ⟨k, w⟩ := kv
    by_cases hk : k = op <;> simp [lookupUtxo, hk, ih]

theorem removeUtxo_append_of_absent (A B : List (OutPoint × (TxOut × Nat))) (op : OutPoint)
    (h : lookupUtxo A op = none) :
    removeUtxo (A ++ B) op = A ++ removeUtxo B op := by
  induction A with
  | nil => simp
  | cons kv rest ih =>
    obtain ⟨k, w⟩ := kv
    by_cases hk : k = op
    · simp [lookupUtxo, hk] at h
    · simp only [lookupUtxo, if_neg hk] at h
      simp [removeUtxo, if_neg hk, ih h]

theorem memAddrKey_append (A B : List (Addr × Nat × OutPoint)) (key : Addr × Nat × OutPoint) :
    memAddrKey (A ++ B) key = (memAddrKey A key || memAddrKey B key) := by
  induction A with
  | nil => simp [memAddrKey]
  | cons k rest ih =>
    by_cases hk : k = key <;> simp [memAddrKey, hk, ih]

theorem removeAddrKey_append_of_absent (A B : List (Addr × Nat × OutPoint))
    (key : Addr × Nat × OutPoint) (h : memAddrKey A key = false) :
    removeAddrKey (A ++ B) key = (A ++ (removeAddrKey B key).1, (removeAddrKey B key).2) := by
  induction A with
  | nil => simp
  | cons k rest ih =>
    by_cases hk : k = key
    · simp [memAddrKey, hk] at h
    · simp only [memAddrKey, if_neg hk] at h
      simp [removeAddrKey, if_neg hk, ih h]

/-- Inserting a fresh outpoint whose script resolves to no valid address
touches only the UTXO mapping. -/
theorem insert_utxo_fresh_noindex (U : UtxoSet) (op : OutPoint) (out : TxOut) (height : Nat)
    (haddr : address_from_script out.script_pubkey = none ∨
       ∃ a, address_from_script out.script_pubkey = some a ∧ a.wellFormed = false)
    (hlk : lookupUtxo U.utxos op = none) :
    insert_utxo U op out height =
      some ⟨U.utxos ++ [(op, (out, height))], U.address_to_outpoints⟩ := by
  have hins := insertUtxoEntry_of_absent U.utxos op (out, height) hlk
  rcases haddr with h | ⟨a, ha, hwf⟩
  · simp [insert_utxo, h, hins]
  · simp [insert_utxo, ha, address_from_str_ok, hwf, hins]

/-- Inserting a fresh outpoint whose script resolves to a well-formed fresh
address appends one entry to the UTXO mapping and one key to the index. -/
theorem insert_utxo_fresh_addr (U : UtxoSet) (op : OutPoint) (out : TxOut) (height : Nat)
    (a : Addr) (hscr : address_from_script out.script_pubkey = some a)
    (hwf : a.wellFormed = true)
    (hmem : memAddrKey U.address_to_outpoints (a, height, op) = false)
    (hlk : lookupUtxo U.utxos op = none) :
    insert_utxo U op out height =
      some ⟨U.utxos ++ [(op, (out, height))],
            U.address_to_outpoints ++ [(a, height, op)]⟩ := by
  have hins := insertUtxoEntry_of_absent U.utxos op (out, height) hlk
  simp [insert_utxo, hscr, address_from_str_ok, hwf, insertAddrKey, hmem, hins]

/-- Claim C6. For every UTXO set, inserting an OutPoint that is already
present in the UTXO mapping aborts with a fatal (non-recoverable) fault,
unless the outpoint's transaction id belongs to the fixed two-element
allow-list of historically duplicated transaction ids, in which case the
new entry silently overwrites the old one and no fault is raised. -/
theorem claim_C6 (utxo_set : UtxoSet) (outpoint : OutPoint) (output : TxOut) (height : Nat)
    (hpresent : (lookupUtxo utxo_set.utxos outpoint).isSome) :
    (insert_utxo utxo_set outpoint output height = none ↔
       outpoint.txid ∉ DUPLICATE_TX_IDS) ∧
    (outpoint.txid ∈ DUPLICATE_TX_IDS →
       ∃ s1, insert_utxo utxo_set outpoint output height = some s1 ∧
         lookupUtxo s1.utxos outpoint = some (output, height)) := by
  unfold insert_utxo
  cases haddr : address_from_script output.script_pubkey with
  | none =>
    have hins := insertUtxoEntry_of_present utxo_set.utxos outpoint (output, height) hpresent
    by_cases hdup : outpoint.txid ∈ DUPLICATE_TX_IDS
    · simp [hins.1, hdup]
      exact hins.2
    · simp [hins.1, hdup]
  | some address =>
    by_cases hwf : address_from_str_ok address
    · have hins := insertUtxoEntry_of_present
        ({ utxo_set with
            address_to_outpoints :=
              insertAddrKey utxo_set.address_to_outpoints (address, height, outpoint) }).utxos
        outpoint (output, height) hpresent
      by_cases hdup : outpoint.txid ∈ DUPLICATE_TX_IDS
      · simp [hwf, hins.1, hdup]
        exact hins.2
      · simp [hwf, hins.1, hdup]
    · have hins := insertUtxoEntry_of_present utxo_set.utxos outpoint (output, height) hpresent
      by_cases hdup : outpoint.txid ∈ DUPLICATE_TX_IDS
      · simp [hwf, hins.1, hdup]
        exact hins.2
      · simp [hwf, hins.1, hdup]

/-- Witness for claim C6 at a concrete state: the first allow-listed id
overwrites silently, while id 5 is not allow-listed so the same insertion
faults. -/
theorem claim_C6_witness :
    ((⟨0xd5d27987d2a3dfc724e359870c6644b40e497bdc0589a033220fe15429d88599, 0⟩ : OutPoint).txid ∈
        DUPLICATE_TX_IDS) ∧
    (∃ s1,
      insert_utxo
        ⟨[(⟨0xd5d27987d2a3dfc724e359870c6644b40e497bdc0589a033220fe15429d88599, 0⟩,
            (⟨1, Script.unresolvable⟩, 0))], []⟩
        ⟨0xd5d27987d2a3dfc724e359870c6644b40e497bdc0589a033220fe15429d88599, 0⟩
        ⟨2, Script.unresolvable⟩ 3 = some s1 ∧
      lookupUtxo s1.utxos
          ⟨0xd5d27987d2a3dfc724e359870c6644b40e497bdc0589a033220fe15429d88599, 0⟩ =
        some (⟨2, Script.unresolvable⟩, 3)) :=
  have h := claim_C6
    ⟨[(⟨0xd5d27987d2a3dfc724e359870c6644b40e497bdc0589a033220fe15429d88599, 0⟩,
        (⟨1, Script.unresolvable⟩, 0))], []⟩
    ⟨0xd5d27987d2a3dfc724e359870c6644b40e497bdc0589a033220fe15429d88599, 0⟩
    ⟨2, Script.unresolvable⟩ 3 (by decide)
  ⟨by decide, h.2 (by decide)⟩

/-- Counterexample to claim C9 as stated: an output whose script resolves
to no address is inserted at an outpoint that is already present and not
allow-listed, and ingestion faults, so address-resolution failure does not
by itself guarantee that ingestion cannot fail. -/
theorem claim_C9_counterexample :
    address_from_script Script.unresolvable = none ∧
    insert_utxo ⟨[(⟨5, 0⟩, (⟨1, Script.toAddr 1⟩, 0))], []⟩ ⟨5, 0⟩
      ⟨2, Script.unresolvable⟩ 1 = none := by
  decide

/-- Claim C9, amended: provided the outpoint is not a non-allow-listed
duplicate of one already present in the UTXO mapping (it is absent, or its
transaction id is on the duplicate allow-list), an output whose script
cannot be resolved to an address, or resolves to an address string failing
the secondary validation pass, is inserted without any fault and the
address index is unchanged: the UTXO mapping becomes the insertion result,
which appends the entry when the outpoint is fresh and overwrites the old
entry in place when the outpoint is an allow-listed duplicate. -/
theorem claim_C9 (utxo_set : UtxoSet) (op : OutPoint) (out : TxOut) (height : Nat)
    (haddr : address_from_script out.script_pubkey = none ∨
       ∃ a, address_from_script out.script_pubkey = some a ∧ a.wellFormed = false)
    (hdup : lookupUtxo utxo_set.utxos op = none ∨ op.txid ∈ DUPLICATE_TX_IDS) :
    insert_utxo utxo_set op out height =
      some { utxo_set with
               utxos := (insertUtxoEntry utxo_set.utxos op (out, height)).1 } ∧
    (lookupUtxo utxo_set.utxos op = none →
      (insertUtxoEntry utxo_set.utxos op (out, height)).1 =
        utxo_set.utxos ++ [(op, (out, height))]) ∧
    ((lookupUtxo utxo_set.utxos op).isSome →
      lookupUtxo (insertUtxoEntry utxo_set.utxos op (out, height)).1 op =
        some (out, height)) := by
  refine ⟨?_, fun hnone => by
      rw [insertUtxoEntry_of_absent utxo_set.utxos op (out, height) hnone],
    fun hsome =>
      (insertUtxoEntry_of_present utxo_set.utxos op (out, height) hsome).2⟩
  unfold insert_utxo
  rcases hdup with hfresh | hlist
  · have hins := insertUtxoEntry_of_absent utxo_set.utxos op (out, height) hfresh
    rcases haddr with h | ⟨a, ha, hwf⟩
    · simp [h, hins]
    · simp [ha, address_from_str_ok, hwf, hins]
  · rcases haddr with h | ⟨a, ha, hwf⟩
    · simp [h]
      exact fun _ => hlist
    · simp [ha, address_from_str_ok, hwf]
      exact fun _ => hlist

/-- Witness for claim C9: an unresolvable-script output at an outpoint that
duplicates an allow-listed transaction id already present in the mapping is
ingested without fault, silently overwriting the old entry, with no
address-index entry created. -/
theorem claim_C9_witness :
    insert_utxo
        ⟨[(⟨0xd5d27987d2a3dfc724e359870c6644b40e497bdc0589a033220fe15429d88599, 0⟩,
            (⟨1, Script.toAddr 1⟩, 0))], []⟩
        ⟨0xd5d27987d2a3dfc724e359870c6644b40e497bdc0589a033220fe15429d88599, 0⟩
        ⟨2, Script.unresolvable⟩ 4 =
      some ⟨[(⟨0xd5d27987d2a3dfc724e359870c6644b40e497bdc0589a033220fe15429d88599, 0⟩,
          (⟨2, Script.unresolvable⟩, 4))], []⟩ :=
  (claim_C9
    ⟨[(⟨0xd5d27987d2a3dfc724e359870c6644b40e497bdc0589a033220fe15429d88599, 0⟩,
        (⟨1, Script.toAddr 1⟩, 0))], []⟩
    ⟨0xd5d27987d2a3dfc724e359870c6644b40e497bdc0589a033220fe15429d88599, 0⟩
    ⟨2, Script.unresolvable⟩ 4 (Or.inl (by decide)) (Or.inr (by decide))).1

/-! Round-trip of output insertion followed by spending (claim C5). -/

/-- The outpoints of the outputs of a transaction with the given id that
output insertion actually inserts (the provably unspendable ones are
skipped), starting at the given output index. -/
def spendOutpoints (txid : Hash) : List TxOut → Nat → List OutPoint
  | [], _ => []
  | out :: rest, vout =>
    if out.script_pubkey.is_provably_unspendable then spendOutpoints txid rest (vout + 1)
    else ⟨txid, vout⟩ :: spendOutpoints txid rest (vout + 1)

/-- The UTXO-map entries created by inserting the given outputs. -/
def outputEntries (txid : Hash) (height : Nat) : List TxOut → Nat →
    List (OutPoint × (TxOut × Nat))
  | [], _ => []
  | out :: rest, vout =>
    if out.script_pubkey.is_provably_unspendable then outputEntries txid height rest (vout + 1)
    else (⟨txid, vout⟩, (out, height)) :: outputEntries txid height rest (vout + 1)

/-- The address-index keys created by inserting the given outputs. -/
def outputAddrKeys (txid : Hash) (height : Nat) : List TxOut → Nat →
    List (Addr × Nat × OutPoint)
  | [], _ => []
  | out :: rest, vout =>
    if out.script_pubkey.is_provably_unspendable then outputAddrKeys txid height rest (vout + 1)
    else
      match address_from_script out.script_pubkey with
      | some a =>
        if a.wellFormed then (a, height, ⟨txid, vout⟩) :: outputAddrKeys txid height rest (vout + 1)
        else outputAddrKeys txid height rest (vout + 1)
      | none => outputAddrKeys txid height rest (vout + 1)

/-- Freshness of a batch of outputs with respect to a UTXO set: none of the
outpoints to be created is present in the UTXO mapping, none of the address
keys to be created is present in the index, and every script that resolves
to an address resolves to a well-formed one. -/
def OutputsFresh (U : UtxoSet) (txid : Hash) (height : Nat) : List TxOut → Nat → Prop
  | [], _ => True
  | out :: rest, vout =>
    lookupUtxo U.utxos ⟨txid, vout⟩ = none ∧
    (match address_from_script out.script_pubkey with
     | some a => a.wellFormed = true ∧
         memAddrKey U.address_to_outpoints (a, height, ⟨txid, vout⟩) = false
     | none => True) ∧
    OutputsFresh U txid height rest (vout + 1)

theorem OutputsFresh_step (txid : Hash) (height : Nat) (out0 : TxOut) (vout0 : Nat)
    (U U1 : UtxoSet)
    (hu : U1.utxos = U.utxos ++ [(⟨txid, vout0⟩, (out0, height))])
    (ha : U1.address_to_outpoints = U.address_to_outpoints ∨
      ∃ a, U1.address_to_outpoints = U.address_to_outpoints ++ [(a, height, ⟨txid, vout0⟩)]) :
    ∀ (rest : List TxOut) (v : Nat), vout0 < v →
    OutputsFresh U txid height rest v → OutputsFresh U1 txid height rest v
  | [], v, _, _ => trivial
  | out :: rest, v, hlt, hf => by
    obtain ⟨hlk, haddr, htail⟩ := hf
    have hne : (⟨txid, vout0⟩ : OutPoint) ≠ ⟨txid, v⟩ := by
      intro heq
      injection heq with h1 h2
      omega
    refine ⟨?_, ?_, OutputsFresh_step txid height out0 vout0 U U1 hu ha rest (v + 1)
      (by omega) htail⟩
    · rw [hu, lookupUtxo_append, hlk]
      simp [lookupUtxo, hne]
    · cases hscr : address_from_script out.script_pubkey with
      | none => trivial
      | some a =>
        rw [hscr] at haddr
        refine ⟨haddr.1, ?_⟩
        rcases ha with ha0 | ⟨a0, ha0⟩
        · rw [ha0]
          exact haddr.2
        · rw [ha0, memAddrKey_append, haddr.2]
          have hne2 : (a0, height, (⟨txid, vout0⟩ : OutPoint)) ≠ (a, height, ⟨txid, v⟩) := by
            intro heq
            exact hne (congrArg (fun p => p.2.2) heq)
          simp [memAddrKey, hne2]

theorem insert_all_phase (txid : Hash) (height : Nat) :
    ∀ (outs : List TxOut) (vout : Nat) (U : UtxoSet),
    OutputsFresh U txid height outs vout →
    insert_all U txid outs vout height =
      some ⟨U.utxos ++ outputEntries txid height outs vout,
            U.address_to_outpoints ++ outputAddrKeys txid height outs vout⟩
  | [], vout, U, _ => by simp [insert_all, outputEntries, outputAddrKeys]
  | out :: rest, vout, U, hf => by
    obtain ⟨hlk, haddr, htail⟩ := hf
    by_cases hsp : out.script_pubkey.is_provably_unspendable = true
    · rw [insert_all, insert_output_step, if_pos hsp]
      dsimp only
      rw [insert_all_phase txid height rest (vout + 1) U htail]
      rw [outputEntries, if_pos hsp, outputAddrKeys, if_pos hsp]
    · rw [insert_all, insert_output_step, if_neg hsp]
      rw [outputEntries, if_neg hsp, outputAddrKeys, if_neg hsp]
      cases hscr : address_from_script out.script_pubkey with
      | none =>
        rw [insert_utxo_fresh_noindex U ⟨txid, vout⟩ out height (Or.inl hscr) hlk]
        dsimp only
        have hfresh1 : OutputsFresh
            ⟨U.utxos ++ [(⟨txid, vout⟩, (out, height))], U.address_to_outpoints⟩
            txid height rest (vout + 1) :=
          OutputsFresh_step txid height out vout U
            ⟨U.utxos ++ [(⟨txid, vout⟩, (out, height))], U.address_to_outpoints⟩
            rfl (Or.inl rfl) rest (vout + 1) (Nat.lt_succ_self vout) htail
        rw [insert_all_phase txid height rest (vout + 1) _ hfresh1]
        simp [List.append_assoc]
      | some a =>
        rw [hscr] at haddr
        rw [insert_utxo_fresh_addr U ⟨txid, vout⟩ out height a hscr haddr.1 haddr.2 hlk]
        dsimp only
        have hfresh1 : OutputsFresh
            ⟨U.utxos ++ [(⟨txid, vout⟩, (out, height))],
             U.address_to_outpoints ++ [(a, height, ⟨txid, vout⟩)]⟩
            txid height rest (vout + 1) :=
          OutputsFresh_step txid height out vout U
            ⟨U.utxos ++ [(⟨txid, vout⟩, (out, height))],
             U.address_to_outpoints ++ [(a, height, ⟨txid, vout⟩)]⟩
            rfl (Or.inr ⟨a, rfl⟩) rest (vout + 1) (Nat.lt_succ_self vout) htail
        rw [insert_all_phase txid height rest (vout + 1) _ hfresh1]
        rw [if_pos haddr.1]
        simp [List.append_assoc]

theorem remove_all_phase (txid : Hash) (height : Nat) :
    ∀ (outs : List TxOut) (vout : Nat) (U : UtxoSet),
    OutputsFresh U txid height outs vout →
    remove_all
      ⟨U.utxos ++ outputEntries txid height outs vout,
       U.address_to_outpoints ++ outputAddrKeys txid height outs vout⟩
      (spendOutpoints txid outs vout) = some U
  | [], vout, U, _ => by simp [remove_all, outputEntries, outputAddrKeys, spendOutpoints]
  | out :: rest, vout, U, hf => by
    obtain ⟨hlk, haddr, htail⟩ := hf
    by_cases hsp : out.script_pubkey.is_provably_unspendable = true
    · rw [spendOutpoints, if_pos hsp, outputEntries, if_pos hsp, outputAddrKeys, if_pos hsp]
      exact remove_all_phase txid height rest (vout + 1) U htail
    · rw [spendOutpoints, if_neg hsp, outputEntries, if_neg hsp, outputAddrKeys, if_neg hsp]
      cases hscr : address_from_script out.script_pubkey with
      | none =>
        dsimp only
        have hstep : remove_input_step
            ⟨U.utxos ++ (⟨txid, vout⟩, (out, height)) ::
                outputEntries txid height rest (vout + 1),
             U.address_to_outpoints ++ outputAddrKeys txid height rest (vout + 1)⟩
            ⟨txid, vout⟩ =
            some ⟨U.utxos ++ outputEntries txid height rest (vout + 1),
                  U.address_to_outpoints ++ outputAddrKeys txid height rest (vout + 1)⟩ := by
          simp [remove_input_step, lookupUtxo_append, hlk, lookupUtxo, hscr,
            removeUtxo_append_of_absent _ _ _ hlk, removeUtxo]
        rw [remove_all, hstep]
        exact remove_all_phase txid height rest (vout + 1) U htail
      | some a =>
        rw [hscr] at haddr
        dsimp only at haddr ⊢
        rw [if_pos haddr.1]
        have hr := removeAddrKey_append_of_absent U.address_to_outpoints
          ((a, height, ⟨txid, vout⟩) :: outputAddrKeys txid height rest (vout + 1))
          (a, height, ⟨txid, vout⟩) haddr.2
        rw [removeAddrKey, if_pos rfl] at hr
        have hstep : remove_input_step
            ⟨U.utxos ++ (⟨txid, vout⟩, (out, height)) ::
                outputEntries txid height rest (vout + 1),
             U.address_to_outpoints ++ (a, height, ⟨txid, vout⟩) ::
                outputAddrKeys txid height rest (vout + 1)⟩
            ⟨txid, vout⟩ =
            some ⟨U.utxos ++ outputEntries txid height rest (vout + 1),
                  U.address_to_outpoints ++ outputAddrKeys txid height rest (vout + 1)⟩ := by
          simp [remove_input_step, lookupUtxo_append, hlk, lookupUtxo, hscr,
            removeUtxo_append_of_absent _ _ _ hlk, removeUtxo, hr]
        rw [remove_all, hstep]
        exact remove_all_phase txid height rest (vout + 1) U htail

theorem spendOutpoints_txid (t1 : Hash) :
    ∀ (outs : List TxOut) (vout : Nat) (op : OutPoint),
    op ∈ spendOutpoints t1 outs vout → op.txid = t1
  | [], vout, op, h => by simp [spendOutpoints] at h
  | out :: rest, vout, op, h => by
    rw [spendOutpoints] at h
    split at h
    · exact spendOutpoints_txid t1 rest (vout + 1) op h
    · rcases List.mem_cons.mp h with h0 | h0
      · rw [h0]
      · exact spendOutpoints_txid t1 rest (vout + 1) op h0

/-- A transaction whose inputs spend outputs of a transaction with a
nonzero id is never mistaken for a coinbase transaction. -/
theorem spend_not_coinbase (t1 t2 : Hash) (outs : List TxOut) (ht1 : t1 ≠ 0) (vout : Nat) :
    Transaction.is_coin_base ⟨t2, spendOutpoints t1 outs vout, []⟩ = false := by
  simp only [Transaction.is_coin_base]
  apply decide_eq_false
  intro heq
  have hmem : nullOutPoint ∈ spendOutpoints t1 outs vout := by
    rw [heq]
    exact List.mem_singleton_self _
  have h0 := spendOutpoints_txid t1 outs vout nullOutPoint hmem
  exact ht1 h0.symm

/-- Counterexample to claim C5 as stated: over an empty UTXO set, a
transaction with one output whose script resolves only to a malformed
address string ingests fine, but the transaction spending that output makes
input removal fault (the address-index entry it asserts to exist was never
created), so the round trip does not return to the original state. -/
theorem claim_C5_counterexample :
    ingest_single ⟨[], []⟩ ⟨1, [], [⟨100, Script.toMalformedAddr 7⟩]⟩ 0 =
      some (⟨[(⟨1, 0⟩, (⟨100, Script.toMalformedAddr 7⟩, 0))], []⟩, Slicing.Done) ∧
    ingest_single ⟨[(⟨1, 0⟩, (⟨100, Script.toMalformedAddr 7⟩, 0))], []⟩
      ⟨2, [⟨1, 0⟩], []⟩ 1 = none := by
  decide

/-- Claim C5, amended: for every UTXO set and every batch of outputs that
is fresh for it (no outpoint or address key to be created is already
present, and every script that resolves to an address resolves to a
well-formed one), ingesting a transaction carrying those outputs and then
ingesting a transaction that spends exactly the outputs that were inserted
returns the UTXO mapping and the address index to exactly their original
state. -/
theorem claim_C5 (U : UtxoSet) (t1 t2 : Hash) (outs : List TxOut) (h1 h2 : Nat)
    (hfresh : OutputsFresh U t1 h1 outs 0) (ht1 : t1 ≠ 0) :
    ingest_single U ⟨t1, [], outs⟩ h1 =
      some (⟨U.utxos ++ outputEntries t1 h1 outs 0,
             U.address_to_outpoints ++ outputAddrKeys t1 h1 outs 0⟩, Slicing.Done) ∧
    ingest_single
      ⟨U.utxos ++ outputEntries t1 h1 outs 0,
       U.address_to_outpoints ++ outputAddrKeys t1 h1 outs 0⟩
      ⟨t2, spendOutpoints t1 outs 0, []⟩ h2 = some (U, Slicing.Done) := by
  have hcb1 : Transaction.is_coin_base ⟨t1, [], outs⟩ = false := rfl
  have hcb2 := spend_not_coinbase t1 t2 outs ht1 0
  constructor
  · rw [ingest_single_pure]
    unfold ingest_tx_pure
    rw [ingestInputs_eq_drop ⟨t1, [], outs⟩ 0 (by simp [hcb1])]
    dsimp only
    simp only [List.drop_zero]
    rw [remove_all]
    simp only [Option.some_bind]
    rw [insert_all_phase t1 h1 outs 0 U hfresh]
    rfl
  · rw [ingest_single_pure]
    unfold ingest_tx_pure
    rw [ingestInputs_eq_drop ⟨t2, spendOutpoints t1 outs 0, []⟩ 0 (by simp [hcb2])]
    dsimp only
    simp only [List.drop_zero]
    rw [remove_all_phase t1 h1 outs 0 U hfresh]
    simp only [Option.some_bind]
    rfl

/-- Witness for claim C5 at a concrete input: one fresh output with a valid
address, inserted and then spent, restores the empty state. -/
theorem claim_C5_witness :
    ingest_single ⟨[], []⟩ ⟨1, [], [⟨10, Script.toAddr 3⟩]⟩ 0 =
      some (⟨[] ++ outputEntries 1 0 [⟨10, Script.toAddr 3⟩] 0,
             [] ++ outputAddrKeys 1 0 [⟨10, Script.toAddr 3⟩] 0⟩, Slicing.Done) ∧
    ingest_single
      ⟨[] ++ outputEntries 1 0 [⟨10, Script.toAddr 3⟩] 0,
       [] ++ outputAddrKeys 1 0 [⟨10, Script.toAddr 3⟩] 0⟩
      ⟨2, spendOutpoints 1 [⟨10, Script.toAddr 3⟩] 0, []⟩ 5 =
      some (⟨[], []⟩, Slicing.Done) :=
  claim_C5 ⟨[], []⟩ 1 2 [⟨10, Script.toAddr 3⟩] 0 5
    ⟨rfl, ⟨rfl, rfl⟩, trivial⟩ (by decide)

/-! The block forest and the unstable-blocks store
(unstable_blocks.rs, with the blocktree and tx_out_cache modules and the
Block type modelled from the spec). -/

/-- A block: header fields reduced to the previous-block reference and the
block's own identifier (block_hash, computed by the upstream crate over the
header), plus the ordered sequence of transactions. -/
structure Block where
  prev_blockhash : Hash
  block_hash : Hash
  txdata : List Transaction
  deriving DecidableEq, Repr

mutual
/-- Modelled from the spec: a node of the blocktree module - one block and
an ordered sequence of owned child subtrees. -/
inductive BlockTree where
  | mk (root : Block) (children : BlockForest)
  deriving DecidableEq
/-- Ordered sequence of sibling subtrees (a Vec of BlockTree in the source;
a mutual inductive here so that every recursion is structural). -/
inductive BlockForest where
  | nil
  | cons (head : BlockTree) (tail : BlockForest)
  deriving DecidableEq
end

def BlockTree.root : BlockTree → Block
  | .mk r _ => r

def BlockTree.children : BlockTree → BlockForest
  | .mk _ cs => cs

def BlockForest.toList : BlockForest → List BlockTree
  | .nil => []
  | .cons t ts => t :: ts.toList

def BlockForest.ofList : List BlockTree → BlockForest
  | [] => .nil
  | t :: ts => .cons t (ofList ts)

theorem toList_ofList (l : List BlockTree) : (BlockForest.ofList l).toList = l := by
  induction l with
  | nil => rfl
  | cons t ts ih => simp [BlockForest.ofList, BlockForest.toList, ih]

theorem ofList_toList : ∀ f : BlockForest, BlockForest.ofList f.toList = f
  | .nil => rfl
  | .cons t ts => by simp [BlockForest.toList, BlockForest.ofList, ofList_toList ts]

mutual
/-- Modelled from the spec: blocktree depth - one plus the maximal depth
among the children, the maximum over no children being zero. -/
def depth : BlockTree → Nat
  | .mk _ cs => 1 + depthForest cs
/-- Maximal depth of the trees of a forest (zero for the empty forest). -/
def depthForest : BlockForest → Nat
  | .nil => 0
  | .cons t ts => max (depth t) (depthForest ts)
end

mutual
/-- Whether some node of the tree has the given block identifier. -/
def containsId : BlockTree → Hash → Bool
  | .mk root cs, h => root.block_hash == h || containsIdForest cs h
def containsIdForest : BlockForest → Hash → Bool
  | .nil, _ => false
  | .cons t ts, h => containsId t h || containsIdForest ts h
end

/-- Appends a subtree at the end of a forest (Vec push in the source). -/
def appendChild : BlockForest → BlockTree → BlockForest
  | .nil, c => .cons c .nil
  | .cons t ts, c => .cons t (appendChild ts c)

mutual
/-- Modelled from the spec: blocktree extend - attach the block as a new
leaf child of the node whose identifier matches its previous-block
reference; none (the DoesNotExtendTree error) when no node matches. -/
def extend : BlockTree → Block → Option BlockTree
  | .mk root cs, block =>
    if block.prev_blockhash == root.block_hash then
      some (.mk root (appendChild cs (.mk block .nil)))
    else
      match extendForest cs block with
      | some cs1 => some (.mk root cs1)
      | none => none
def extendForest : BlockForest → Block → Option BlockForest
  | .nil, _ => none
  | .cons t ts, block =>
    match extend t block with
    | some t1 => some (.cons t1 ts)
    | none =>
      match extendForest ts block with
      | some ts1 => some (.cons t ts1)
      | none => none
end

mutual
/-- All blocks held anywhere in the tree. -/
def blocksOfTree : BlockTree → List Block
  | .mk root cs => root :: blocksOfForest cs
def blocksOfForest : BlockForest → List Block
  | .nil => []
  | .cons t ts => blocksOfTree t ++ blocksOfForest ts
end

/-- Whether the forest contains the given block as a childless leaf. -/
def leafMemForest : BlockForest → Block → Bool
  | .nil, _ => false
  | .cons t ts, block => t == BlockTree.mk block .nil || leafMemForest ts block

mutual
/-- Whether some node with the identifier referenced by the block carries
the block as a leaf child. -/
def hasLeafChild : BlockTree → Block → Bool
  | .mk root cs, block =>
    (root.block_hash == block.prev_blockhash && leafMemForest cs block) ||
      hasLeafChildForest cs block
def hasLeafChildForest : BlockForest → Block → Bool
  | .nil, _ => false
  | .cons t ts, block => hasLeafChild t block || hasLeafChildForest ts block
end

mutual
/-- Modelled from the spec: blocktree blockchains - every maximal path from
the root to a leaf of the tree, each path listing its blocks root first. -/
def blockchains : BlockTree → List (List Block)
  | .mk root .nil => [[root]]
  | .mk root (.cons c cs) => (blockchainsForest (.cons c cs)).map (root :: ·)
def blockchainsForest : BlockForest → List (List Block)
  | .nil => []
  | .cons t ts => blockchains t ++ blockchainsForest ts
end

/-- An entry of the unconfirmed-output cache: the cached output, its
creation height, and the identifier of the block that created it. -/
structure CacheEntry where
  outpoint : OutPoint
  txout : TxOut
  height : Nat
  createdBy : Hash
  deriving DecidableEq, Repr

/-- Modelled from the spec: the TxOutCache state - the per-unstable-block
output entries, plus the heights at which each inserted block sits (needed
to tag new entries with the height of their creating block, blocks being
inserted parent before child). -/
structure TxOutCache where
  entries : List CacheEntry
  block_heights : List (Hash × Nat)
  deriving DecidableEq, Repr

def cacheLookup : List CacheEntry → OutPoint → Option CacheEntry
  | [], _ => none
  | e :: rest, op => if e.outpoint = op then some e else cacheLookup rest op

def cacheRemove : List CacheEntry → OutPoint → List CacheEntry
  | [], _ => []
  | e :: rest, op => if e.outpoint = op then rest else e :: cacheRemove rest op

def heightLookup : List (Hash × Nat) → Hash → Option Nat
  | [], _ => none
  | (k, v) :: rest, h => if k = h then some v else heightLookup rest h

/-- Cache entries created for the outputs of one transaction. -/
def cacheOutputsEntries (txid : Hash) (height : Nat) (blockId : Hash) :
    List TxOut → Nat → List CacheEntry
  | [], _ => []
  | out :: rest, vout =>
    ⟨⟨txid, vout⟩, out, height, blockId⟩ :: cacheOutputsEntries txid height blockId rest (vout + 1)

/-- Modelled from the spec: resolution of the consumed inputs of one
transaction against the cache or the persistent view; a consumed cached
entry is removed, an input resolving in neither source is a failure. -/
def removeCacheInputs (utxos : UtxoSet) : List CacheEntry → List OutPoint →
    Option (List CacheEntry)
  | entries, [] => some entries
  | entries, op :: rest =>
    if (cacheLookup entries op).isSome then removeCacheInputs utxos (cacheRemove entries op) rest
    else if (lookupUtxo utxos.utxos op).isSome then removeCacheInputs utxos entries rest
    else none

/-- Processing of one transaction during cache insertion: resolve and
consume its inputs (coinbase transactions have none to resolve), then
record its outputs. -/
def insertCacheTx (utxos : UtxoSet) (height : Nat) (blockId : Hash)
    (entries : List CacheEntry) (tx : Transaction) : Option (List CacheEntry) :=
  match removeCacheInputs utxos entries (if tx.is_coin_base then [] else tx.input) with
  | none => none
  | some e1 => some (e1 ++ cacheOutputsEntries tx.txid height blockId tx.output 0)

def insertCacheTxs (utxos : UtxoSet) (height : Nat) (blockId : Hash) :
    List CacheEntry → List Transaction → Option (List CacheEntry)
  | entries, [] => some entries
  | entries, tx :: txs =>
    match insertCacheTx utxos height blockId entries tx with
    | none => none
    | some e1 => insertCacheTxs utxos height blockId e1 txs

/-- Modelled from the spec: TxOutCache insert - called once per block in
forest order, it records the outputs the block creates keyed by OutPoint
and tagged with the block's height, marks consumed outputs as removed, and
fails when an input resolves neither in the persistent index nor in the
cache. -/
def TxOutCache.insert (cache : TxOutCache) (utxos : UtxoSet) (block : Block) :
    Option TxOutCache :=
  let height :=
    match heightLookup cache.block_heights block.prev_blockhash with
    | some h => h + 1
    | none => 0
  match insertCacheTxs utxos height block.block_hash cache.entries block.txdata with
  | none => none
  | some e1 => some ⟨e1, cache.block_heights ++ [(block.block_hash, height)]⟩

/-- Modelled from the spec: TxOutCache remove - evicts every cache entry
whose creating block is the given block. -/
def TxOutCache.remove (cache : TxOutCache) (block : Block) : TxOutCache :=
  ⟨cache.entries.filter (fun e => e.createdBy != block.block_hash), cache.block_heights⟩

/-- The unstable-blocks store (unstable_blocks.rs UnstableBlocks). -/
structure UnstableBlocks where
  stability_threshold : Nat
  tree : BlockTree
  tx_out_cache : TxOutCache
  deriving DecidableEq

/-- The ascending-depth comparison by which pop sorts the anchor's child
subtrees (sort_by_key in the source). -/
def depthLe (a b : BlockTree) : Prop :=
  depth a ≤ depth b

instance : DecidableRel depthLe :=
  fun a b => inferInstanceAs (Decidable (depth a ≤ depth b))

instance : IsTotal BlockTree depthLe :=
  ⟨fun a b => Nat.le_total (depth a) (depth b)⟩

instance : IsTrans BlockTree depthLe :=
  ⟨fun _ _ _ => Nat.le_trans⟩

/-- The stable ascending sort by depth applied to the anchor's children.
The source uses the stable Rust sort_by_key; any two stable sorts by the
same key agree, so the stable insertion sort used here computes the same
list as the merge sort of the source. -/
def sortByDepth (l : List BlockTree) : List BlockTree :=
  List.insertionSort depthLe l

/-- The secondary stability test of pop: with at least two children, the
difference between the deepest and the second-deepest depth must not fall
below the threshold (the list is sorted ascending, so the subtraction never
underflows and Nat subtraction agrees with the u32 subtraction). -/
def second_deepest_check (l : List BlockTree) (deepest : BlockTree) (t : Nat) : Bool :=
  if 2 ≤ l.length then
    match l.get? (l.length - 2) with
    | some second => decide (depth deepest - depth second < t)
    | none => false
  else false

/-- Pops the anchor block iff a child of the anchor is stable
(unstable_blocks.rs pop): the children are taken out and stably sorted by
depth; the deepest child must reach the stability threshold and, when a
second child exists, outrank the second deepest by the threshold; on
success the deepest child subtree becomes the whole forest, the former
anchor is returned, and its cache entries are evicted; on failure the
sorted children are put back and nothing is returned. -/
def pop (blocks : UnstableBlocks) : UnstableBlocks × Option Block :=
  let anchor_child_trees := sortByDepth blocks.tree.children.toList
  match anchor_child_trees.getLast? with
  | none => (blocks, none)
  | some deepest_child_tree =>
    if depth deepest_child_tree < blocks.stability_threshold then
      ({ blocks with
          tree := .mk blocks.tree.root (BlockForest.ofList anchor_child_trees) }, none)
    else if second_deepest_check anchor_child_trees deepest_child_tree
        blocks.stability_threshold then
      ({ blocks with
          tree := .mk blocks.tree.root (BlockForest.ofList anchor_child_trees) }, none)
    else
      ({ blocks with
          tree := deepest_child_tree,
          tx_out_cache := blocks.tx_out_cache.remove blocks.tree.root },
        some blocks.tree.root)

/-- Result of push: success or the recoverable DoesNotExtendTree error,
each carrying the store as left behind by the call. -/
inductive PushResult where
  | ok (blocks : UnstableBlocks)
  | blockDoesNotExtendTree (blocks : UnstableBlocks)
  deriving DecidableEq

/-- Pushes a new block into the store (unstable_blocks.rs push): the block
is first inserted into the tx-out cache - the unwrap of the source makes a
cache failure a panic, modelled as none - and only then is the tree
extended, so the DoesNotExtendTree error is returned with the cache already
modified. -/
def push (blocks : UnstableBlocks) (utxos : UtxoSet) (block : Block) : Option PushResult :=
  match blocks.tx_out_cache.insert utxos block with
  | none => none
  | some cache1 =>
    match extend blocks.tree block with
    | some tree1 => some (.ok { blocks with tree := tree1, tx_out_cache := cache1 })
    | none => some (.blockDoesNotExtendTree { blocks with tx_out_cache := cache1 })

/-- The length of the longest blockchain, as folded by get_main_chain. -/
def maxChainLen (chains : List (List Block)) : Nat :=
  chains.foldl (fun acc bc => max acc bc.length) 0

/-- The block-by-block lock-step walk of get_main_chain over the longest
chains, from the given height while all chains agree on the identifier at
that height; the fuel is the number of heights left to visit. -/
def lockstep (c0 : List Block) (rest : List (List Block)) : Nat → Nat → List Block
  | _, 0 => []
  | h, fuel + 1 =>
    match c0.get? h with
    | none => []
    | some block =>
      if rest.all (fun chain =>
          match chain.get? h with
          | some b1 => b1.block_hash == block.block_hash
          | none => false) then
        block :: lockstep c0 rest (h + 1) fuel
      else []

/-- Returns the best guess on what the main blockchain is
(unstable_blocks.rs get_main_chain): keep the blockchains of maximal
length, then walk them in lock step from height one past the anchor while
they all agree on the block identifier. -/
def get_main_chain (blocks : UnstableBlocks) : List Block :=
  let blockchains1 := blockchains blocks.tree
  let longest_blockchain_len := maxChainLen blockchains1
  let longest_blockchains :=
    blockchains1.filter (fun bc => bc.length == longest_blockchain_len)
  match longest_blockchains with
  | [] => []
  | c0 :: rest =>
    match c0 with
    | [] => []
    | b0 :: _ => b0 :: lockstep c0 rest 1 (longest_blockchain_len - 1)

/-! Lemmas about extend and push (claims C7 and C10). -/

mutual
theorem extend_isSome : ∀ (t : BlockTree) (b : Block),
    (extend t b).isSome = containsId t b.prev_blockhash
  | .mk root cs, b => by
    rw [extend, containsId]
    by_cases h : b.prev_blockhash = root.block_hash
    · simp [h]
    · have hb : (b.prev_blockhash == root.block_hash) = false := by simpa using h
      have hb2 : (root.block_hash == b.prev_blockhash) = false := by
        simp only [beq_eq_false_iff_ne, ne_eq]
        exact fun he => h he.symm
      rw [if_neg (by simp [hb])]
      rw [hb2, Bool.false_or]
      have hIH := extendForest_isSome cs b
      cases hfe : extendForest cs b <;> rw [hfe] at hIH <;> simp [hfe, ← hIH]
theorem extendForest_isSome : ∀ (f : BlockForest) (b : Block),
    (extendForest f b).isSome = containsIdForest f b.prev_blockhash
  | .nil, b => by simp [extendForest, containsIdForest]
  | .cons t ts, b => by
    rw [extendForest, containsIdForest]
    have h1 := extend_isSome t b
    cases he : extend t b with
    | some t1 =>
      rw [he] at h1
      simp [← h1]
    | none =>
      rw [he] at h1
      have h2 := extendForest_isSome ts b
      cases hfe : extendForest ts b <;> rw [hfe] at h2 <;> simp [hfe, ← h1, ← h2]
end

theorem leafMem_appendChild : ∀ (f : BlockForest) (b : Block),
    leafMemForest (appendChild f (.mk b .nil)) b = true
  | .nil, b => by simp [appendChild, leafMemForest]
  | .cons t ts, b => by simp [appendChild, leafMemForest, leafMem_appendChild ts b]

theorem blocksOf_appendChild : ∀ (f : BlockForest) (c : BlockTree),
    blocksOfForest (appendChild f c) = blocksOfForest f ++ blocksOfTree c
  | .nil, c => by simp [appendChild, blocksOfForest]
  | .cons t ts, c => by simp [appendChild, blocksOfForest, blocksOf_appendChild ts c]

mutual
/-- On success, extend attaches the block as a leaf child of a node whose
identifier matches its previous-block reference, and removes no block. -/
theorem extend_tree_spec : ∀ (t : BlockTree) (b : Block) (t1 : BlockTree),
    extend t b = some t1 →
    hasLeafChild t1 b = true ∧ ∀ x ∈ blocksOfTree t, x ∈ blocksOfTree t1
  | .mk root cs, b, t1, h => by
    rw [extend] at h
    by_cases hc : b.prev_blockhash = root.block_hash
    · rw [if_pos (by simp [hc])] at h
      simp only [Option.some.injEq] at h
      subst h
      constructor
      · rw [hasLeafChild]
        simp [hc, leafMem_appendChild]
      · intro x hx
        rw [blocksOfTree] at hx ⊢
        rw [blocksOf_appendChild]
        rcases List.mem_cons.mp hx with h0 | h0
        · exact List.mem_cons.mpr (Or.inl h0)
        · exact List.mem_cons.mpr (Or.inr (List.mem_append_left _ h0))
    · rw [if_neg (by simp [hc])] at h
      cases hfe : extendForest cs b with
      | none => rw [hfe] at h; cases h
      | some cs1 =>
        rw [hfe] at h
        simp only [Option.some.injEq] at h
        subst h
        have hih := extend_forest_spec cs b cs1 hfe
        constructor
        · rw [hasLeafChild, hih.1]
          simp
        · intro x hx
          rw [blocksOfTree] at hx ⊢
          rcases List.mem_cons.mp hx with h0 | h0
          · exact List.mem_cons.mpr (Or.inl h0)
          · exact List.mem_cons.mpr (Or.inr (hih.2 x h0))
theorem extend_forest_spec : ∀ (f : BlockForest) (b : Block) (f1 : BlockForest),
    extendForest f b = some f1 →
    hasLeafChildForest f1 b = true ∧ ∀ x ∈ blocksOfForest f, x ∈ blocksOfForest f1
  | .nil, b, f1, h => by cases h
  | .cons t ts, b, f1, h => by
    rw [extendForest] at h
    cases he : extend t b with
    | some t1 =>
      rw [he] at h
      simp only [Option.some.injEq] at h
      subst h
      have hih := extend_tree_spec t b t1 he
      constructor
      · rw [hasLeafChildForest, hih.1]
        simp
      · intro x hx
        rw [blocksOfForest] at hx ⊢
        rcases List.mem_append.mp hx with h0 | h0
        · exact List.mem_append_left _ (hih.2 x h0)
        · exact List.mem_append_right _ h0
    | none =>
      rw [he] at h
      cases hfe : extendForest ts b with
      | none => rw [hfe] at h; cases h
      | some ts1 =>
        rw [hfe] at h
        simp only [Option.some.injEq] at h
        subst h
        have hih := extend_forest_spec ts b ts1 hfe
        constructor
        · rw [hasLeafChildForest, hih.1]
          simp
        · intro x hx
          rw [blocksOfForest] at hx ⊢
          rcases List.mem_append.mp hx with h0 | h0
          · exact List.mem_append_left _ h0
          · exact List.mem_append_right _ (hih.2 x h0)
end

/-- Counterexample to claim C7 as stated: a block whose previous-block
reference matches the anchor, but one of whose transaction inputs resolves
neither in the cache nor in the UTXO view: push panics (the unwrap on the
cache insertion) instead of succeeding. -/
theorem claim_C7_counterexample :
    containsId (BlockTree.mk ⟨0, 1, []⟩ .nil)
        (⟨1, 2, [⟨9, [⟨5, 0⟩], []⟩]⟩ : Block).prev_blockhash = true ∧
    push ⟨3, BlockTree.mk ⟨0, 1, []⟩ .nil, ⟨[], []⟩⟩ ⟨[], []⟩
        ⟨1, 2, [⟨9, [⟨5, 0⟩], []⟩]⟩ = none := by
  decide

/-- Claim C7, amended: provided the block's transactions resolve against
the cache and the UTXO view (otherwise push panics), push succeeds exactly
when the block's previous-block reference matches the identifier of some
node of the forest; on success the block becomes a new leaf child of such a
node and no block is removed from the forest; otherwise push returns the
DoesNotExtendTree error and the tree is unchanged. -/
theorem claim_C7 (blocks : UnstableBlocks) (utxos : UtxoSet) (block : Block)
    (hres : (blocks.tx_out_cache.insert utxos block).isSome) :
    ((∃ b1, push blocks utxos block = some (PushResult.ok b1)) ↔
       containsId blocks.tree block.prev_blockhash = true) ∧
    (∀ b1, push blocks utxos block = some (PushResult.ok b1) →
       hasLeafChild b1.tree block = true ∧
       ∀ x ∈ blocksOfTree blocks.tree, x ∈ blocksOfTree b1.tree) ∧
    (containsId blocks.tree block.prev_blockhash = false →
       ∃ b1, push blocks utxos block = some (PushResult.blockDoesNotExtendTree b1) ∧
         b1.tree = blocks.tree) := by
  obtain ⟨cache1, hc⟩ := Option.isSome_iff_exists.mp hres
  unfold push
  rw [hc]
  cases hext : extend blocks.tree block with
  | some tree1 =>
    have hco : containsId blocks.tree block.prev_blockhash = true := by
      rw [← extend_isSome blocks.tree block, hext]
      rfl
    have hsp := extend_tree_spec blocks.tree block tree1 hext
    refine ⟨⟨fun _ => hco, fun _ => ⟨_, rfl⟩⟩, ?_, ?_⟩
    · intro b1 h1
      simp only [Option.some.injEq, PushResult.ok.injEq] at h1
      rw [← h1]
      exact hsp
    · intro hfalse
      rw [hco] at hfalse
      cases hfalse
  | none =>
    have hco : containsId blocks.tree block.prev_blockhash = false := by
      rw [← extend_isSome blocks.tree block, hext]
      rfl
    refine ⟨⟨?_, ?_⟩, ?_, ?_⟩
    · rintro ⟨b1, h1⟩
      simp at h1
    · intro h1
      rw [hco] at h1
      cases h1
    · intro b1 h1
      simp at h1
    · intro _
      exact ⟨_, rfl, rfl⟩

/-- Witness for claim C7: pushing a block with no transactions whose
previous reference is the anchor succeeds. -/
theorem claim_C7_witness :
    ∃ b1, push ⟨3, BlockTree.mk ⟨0, 1, []⟩ .nil, ⟨[], []⟩⟩ ⟨[], []⟩ ⟨1, 2, []⟩ =
      some (PushResult.ok b1) :=
  (claim_C7 ⟨3, BlockTree.mk ⟨0, 1, []⟩ .nil, ⟨[], []⟩⟩ ⟨[], []⟩ ⟨1, 2, []⟩
    (by decide)).1.mpr (by decide)

theorem insertCacheTxs_append (utxos : UtxoSet) (height : Nat) (blockId : Hash) :
    ∀ (txs1 txs2 : List Transaction) (entries : List CacheEntry),
    insertCacheTxs utxos height blockId entries (txs1 ++ txs2) =
      (insertCacheTxs utxos height blockId entries txs1).bind
        (fun e1 => insertCacheTxs utxos height blockId e1 txs2)
  | [], txs2, entries => by simp [insertCacheTxs]
  | tx :: txs1, txs2, entries => by
    rw [List.cons_append, insertCacheTxs]
    cases hstep : insertCacheTx utxos height blockId entries tx with
    | none => simp [insertCacheTxs, hstep]
    | some e1 =>
      rw [insertCacheTxs, hstep]
      exact insertCacheTxs_append utxos height blockId txs1 txs2 e1

/-- A successful cache insertion of a block whose last transaction has at
least one output leaves an entry created by that block in the cache. -/
theorem cache_insert_creates (cache : TxOutCache) (utxos : UtxoSet) (block : Block)
    (cache1 : TxOutCache) (hins : cache.insert utxos block = some cache1)
    (htx : ∃ txs tx, block.txdata = txs ++ [tx] ∧ tx.output ≠ []) :
    ∃ e ∈ cache1.entries, e.createdBy = block.block_hash := by
  obtain ⟨txs, tx, hdata, hout⟩ := htx
  unfold TxOutCache.insert at hins
  dsimp only at hins
  cases hbody : insertCacheTxs utxos
      (match heightLookup cache.block_heights block.prev_blockhash with
       | some h => h + 1
       | none => 0) block.block_hash cache.entries block.txdata with
  | none => rw [hbody] at hins; cases hins
  | some e1 =>
    rw [hbody] at hins
    simp only [Option.some.injEq] at hins
    rw [hdata, insertCacheTxs_append] at hbody
    cases hmid : insertCacheTxs utxos _ block.block_hash cache.entries txs with
    | none => rw [hmid] at hbody; cases hbody
    | some eMid =>
      rw [hmid] at hbody
      simp only [Option.some_bind, insertCacheTxs] at hbody
      cases hone : insertCacheTx utxos _ block.block_hash eMid tx with
      | none => rw [hone] at hbody; cases hbody
      | some eTx =>
        rw [hone] at hbody
        unfold insertCacheTx at hone
        cases hrem : removeCacheInputs utxos eMid
            (if tx.is_coin_base then [] else tx.input) with
        | none => rw [hrem] at hone; cases hone
        | some e2 =>
          rw [hrem] at hone
          simp only [Option.some.injEq] at hone hbody
          cases houts : tx.output with
          | nil => exact absurd houts hout
          | cons o os =>
            refine ⟨⟨⟨tx.txid, 0⟩, o,
              (match heightLookup cache.block_heights block.prev_blockhash with
               | some h => h + 1
               | none => 0), block.block_hash⟩, ?_, rfl⟩
            rw [← hins]
            dsimp only
            rw [← hbody, ← hone, houts, cacheOutputsEntries]
            exact List.mem_append_right _ (List.mem_cons_self _ _)

/-- Claim C10 (implicit). Push is not atomic on failure: the block's
transaction effects are inserted into the tx-out cache before the tree
membership test, so when no node matches the previous-block reference the
call returns the DoesNotExtendTree error with the cache already updated,
and (when the block really creates outputs not previously cached) the
resulting store differs from the store before the call; moreover, if an
input of the block resolves neither in the cache nor in the UTXO view, push
panics (returns no result at all) instead of returning the error. -/
theorem claim_C10 (blocks : UnstableBlocks) (utxos : UtxoSet) (block : Block) :
    (blocks.tx_out_cache.insert utxos block = none → push blocks utxos block = none) ∧
    (∀ cache1, blocks.tx_out_cache.insert utxos block = some cache1 →
       containsId blocks.tree block.prev_blockhash = false →
       push blocks utxos block =
         some (PushResult.blockDoesNotExtendTree { blocks with tx_out_cache := cache1 }) ∧
       ((∃ txs tx, block.txdata = txs ++ [tx] ∧ tx.output ≠ []) →
        (∀ e ∈ blocks.tx_out_cache.entries, e.createdBy ≠ block.block_hash) →
        { blocks with tx_out_cache := cache1 } ≠ blocks)) := by
  constructor
  · intro hnone
    unfold push
    rw [hnone]
  · intro cache1 hins hco
    have hext : extend blocks.tree block = none := by
      have h1 := extend_isSome blocks.tree block
      rw [hco] at h1
      exact Option.not_isSome_iff_eq_none.mp (by rw [h1]; exact Bool.false_ne_true)
    constructor
    · unfold push
      rw [hins, hext]
    · intro htx hfresh heq
      obtain ⟨e, he1, he2⟩ := cache_insert_creates blocks.tx_out_cache utxos block cache1 hins htx
      have : cache1 = blocks.tx_out_cache := congrArg UnstableBlocks.tx_out_cache heq
      rw [this] at he1
      exact hfresh e he1 he2

/-- Witness for claim C10: a coinbase-only block not extending the tree is
rejected, yet its output is left in the cache and the store has changed. -/
theorem claim_C10_witness :
    push ⟨3, BlockTree.mk ⟨0, 1, []⟩ .nil, ⟨[], []⟩⟩ ⟨[], []⟩
        ⟨5, 2, [⟨9, [nullOutPoint], [⟨7, Script.unresolvable⟩]⟩]⟩ =
      some (PushResult.blockDoesNotExtendTree
        ⟨3, BlockTree.mk ⟨0, 1, []⟩ .nil,
         ⟨[⟨⟨9, 0⟩, ⟨7, Script.unresolvable⟩, 0, 2⟩], [(2, 0)]⟩⟩) ∧
    (⟨3, BlockTree.mk ⟨0, 1, []⟩ .nil,
      ⟨[⟨⟨9, 0⟩, ⟨7, Script.unresolvable⟩, 0, 2⟩], [(2, 0)]⟩⟩ : UnstableBlocks) ≠
      ⟨3, BlockTree.mk ⟨0, 1, []⟩ .nil, ⟨[], []⟩⟩ :=
  have h := (claim_C10 ⟨3, BlockTree.mk ⟨0, 1, []⟩ .nil, ⟨[], []⟩⟩ ⟨[], []⟩
    ⟨5, 2, [⟨9, [nullOutPoint], [⟨7, Script.unresolvable⟩]⟩]⟩).2
    ⟨[⟨⟨9, 0⟩, ⟨7, Script.unresolvable⟩, 0, 2⟩], [(2, 0)]⟩ (by decide) (by decide)
  ⟨h.1, h.2 ⟨[], ⟨9, [nullOutPoint], [⟨7, Script.unresolvable⟩]⟩, rfl, by decide⟩
    (by decide)⟩

/-! Lemmas about the stable sort by depth and pop (claims C1 and C2). -/

theorem sortByDepth_perm (l : List BlockTree) : List.Perm (sortByDepth l) l :=
  List.perm_insertionSort depthLe l

theorem sortByDepth_sorted (l : List BlockTree) : List.Sorted depthLe (sortByDepth l) :=
  List.sorted_insertionSort depthLe l

theorem sortByDepth_of_sorted {l : List BlockTree} (h : List.Sorted depthLe l) :
    sortByDepth l = l :=
  h.insertionSort_eq

/-- In an ascending-depth sorted list the last element has maximal depth. -/
theorem sorted_le_getLast : ∀ (l : List BlockTree), List.Sorted depthLe l →
    ∀ m, l.getLast? = some m → ∀ x ∈ l, depth x ≤ depth m
  | [], _, m, h, x, hx => by cases h
  | [a], _, m, h, x, hx => by
    simp only [List.getLast?_singleton, Option.some.injEq] at h
    rcases List.mem_singleton.mp hx with rfl
    rw [h]
  | a :: b :: t, hs, m, h, x, hx => by
    rw [List.getLast?_cons_cons] at h
    rcases List.mem_cons.mp hx with rfl | hx2
    · have hbm := sorted_le_getLast (b :: t) (List.sorted_cons.mp hs).2 m h b
        (List.mem_cons_self b t)
      have hab : depth x ≤ depth b := (List.sorted_cons.mp hs).1 b (List.mem_cons_self b t)
      omega
    · exact sorted_le_getLast (b :: t) (List.sorted_cons.mp hs).2 m h x hx2

/-- The element the source reads at index length minus two is the last
element of the list without its last element. -/
theorem get_second_eq (l : List BlockTree) (h2 : 2 ≤ l.length) :
    l.get? (l.length - 2) = l.dropLast.getLast? := by
  rw [List.get?_eq_getElem?, List.getLast?_eq_getElem?, List.getElem?_dropLast,
    List.length_dropLast]
  rw [if_pos (by omega)]
  have h3 : l.length - 2 = l.length - 1 - 1 := by omega
  rw [h3]

/-- The stability condition of the specification: some child reaches the
threshold and outranks every sibling by at least the threshold. -/
def stabilityCondition (t : Nat) (cs : List BlockTree) : Prop :=
  ∃ c ∈ cs, t ≤ depth c ∧ ∀ c1 ∈ cs.erase c, depth c1 + t ≤ depth c

theorem stabilityCondition_perm {t : Nat} {l1 l2 : List BlockTree} (hp : List.Perm l1 l2) :
    stabilityCondition t l1 ↔ stabilityCondition t l2 := by
  unfold stabilityCondition
  constructor
  · rintro ⟨c, hc, hct, hsib⟩
    exact ⟨c, hp.mem_iff.mp hc, hct, fun c1 hc1 => hsib c1 ((hp.erase c).mem_iff.mpr hc1)⟩
  · rintro ⟨c, hc, hct, hsib⟩
    exact ⟨c, hp.mem_iff.mpr hc, hct, fun c1 hc1 => hsib c1 ((hp.erase c).mem_iff.mp hc1)⟩

/-- Full description of pop: the returned block and the new store in each
case, phrased against the unsorted child list of the anchor. -/
theorem pop_spec (blocks : UnstableBlocks) :
    ((pop blocks).2 ≠ none ↔
       stabilityCondition blocks.stability_threshold blocks.tree.children.toList) ∧
    (∀ b, (pop blocks).2 = some b →
       b = blocks.tree.root ∧
       (pop blocks).1.tree ∈ blocks.tree.children.toList ∧
       (∀ c ∈ blocks.tree.children.toList, depth c ≤ depth (pop blocks).1.tree) ∧
       (pop blocks).1.stability_threshold = blocks.stability_threshold ∧
       (pop blocks).1.tx_out_cache = blocks.tx_out_cache.remove blocks.tree.root) ∧
    ((pop blocks).2 = none →
       (pop blocks).1.tree.root = blocks.tree.root ∧
       (pop blocks).1.tree.children.toList = sortByDepth blocks.tree.children.toList ∧
       (pop blocks).1.stability_threshold = blocks.stability_threshold ∧
       (pop blocks).1.tx_out_cache = blocks.tx_out_cache) := by
  have hperm := sortByDepth_perm blocks.tree.children.toList
  have hsorted := sortByDepth_sorted blocks.tree.children.toList
  unfold pop
  dsimp only
  cases hlast : (sortByDepth blocks.tree.children.toList).getLast? with
  | none =>
    dsimp only
    have hnil : sortByDepth blocks.tree.children.toList = [] :=
      List.getLast?_eq_none_iff.mp hlast
    have hcs : blocks.tree.children.toList = [] := by
      rw [hnil] at hperm
      exact (hperm.symm.eq_nil)
    refine ⟨?_, ?_, ?_⟩
    · constructor
      · intro h
        exact absurd rfl h
      · rintro ⟨c, hc, _⟩
        rw [hcs] at hc
        cases hc
    · intro b hb
      exact absurd hb (by simp)
    · intro _
      refine ⟨rfl, ?_, rfl, rfl⟩
      rw [hcs]
      rfl
  | some m =>
    dsimp only
    have hmem_m : m ∈ blocks.tree.children.toList :=
      hperm.mem_iff.mp (List.mem_of_getLast?_eq_some hlast)
    have hle_m : ∀ x ∈ blocks.tree.children.toList, depth x ≤ depth m := fun x hx =>
      sorted_le_getLast _ hsorted m hlast x (hperm.mem_iff.mpr hx)
    by_cases h1 : depth m < blocks.stability_threshold
    · rw [if_pos h1]
      refine ⟨?_, ?_, ?_⟩
      · constructor
        · intro h
          exact absurd rfl h
        · rintro ⟨c, hc, hct, _⟩
          have := hle_m c hc
          omega
      · intro b hb
        exact absurd hb (by simp)
      · intro _
        exact ⟨rfl, toList_ofList _, rfl, rfl⟩
    · rw [if_neg h1]
      by_cases h2 : second_deepest_check (sortByDepth blocks.tree.children.toList) m
          blocks.stability_threshold = true
      · rw [if_pos h2]
        unfold second_deepest_check at h2
        by_cases hlen : 2 ≤ (sortByDepth blocks.tree.children.toList).length
        · rw [if_pos hlen] at h2
          refine ⟨?_, ?_, ?_⟩
          · constructor
            · intro h
              exact absurd rfl h
            · rintro ⟨c, hc, hct, hsib⟩
              cases hsec : (sortByDepth blocks.tree.children.toList).get?
                  ((sortByDepth blocks.tree.children.toList).length - 2) with
              | none => rw [hsec] at h2; cases h2
              | some second =>
                rw [hsec] at h2
                have hgap : depth m - depth second <
                    blocks.stability_threshold := of_decide_eq_true h2
                rw [get_second_eq _ hlen] at hsec
                have hmem_sec_dl : second ∈ (sortByDepth blocks.tree.children.toList).dropLast :=
                  List.mem_of_getLast?_eq_some hsec
                have hmem_sec : second ∈ blocks.tree.children.toList :=
                  hperm.mem_iff.mp ((List.dropLast_sublist _).mem hmem_sec_dl)
                have hsec_le : depth second ≤ depth m :=
                  hle_m second hmem_sec
                by_cases hcm : c = m
                · subst hcm
                  by_cases hsm : second = c
                  · subst hsm
                    have hdecomp := List.dropLast_append_getLast? second hlast
                    have hc_er : second ∈
                        (sortByDepth blocks.tree.children.toList).erase second := by
                      rw [← hdecomp, List.erase_append_left _ hmem_sec_dl]
                      exact List.mem_append_right _ (List.mem_singleton_self _)
                    have := hsib second ((hperm.erase second).mem_iff.mp hc_er)
                    omega
                  · have hmem_er : second ∈ blocks.tree.children.toList.erase c :=
                      (List.mem_erase_of_ne hsm).mpr hmem_sec
                    have := hsib second hmem_er
                    have := hle_m c hc
                    omega
                · have hmm : m ∈ blocks.tree.children.toList.erase c :=
                    (List.mem_erase_of_ne (fun he => hcm he.symm)).mpr hmem_m
                  have h3 := hsib m hmm
                  have h4 := hle_m c hc
                  omega
          · intro b hb
            exact absurd hb (by simp)
          · intro _
            exact ⟨rfl, toList_ofList _, rfl, rfl⟩
        · rw [if_neg hlen] at h2
          cases h2
      · rw [if_neg h2]
        refine ⟨?_, ?_, ?_⟩
        · constructor
          · intro _
            refine ⟨m, hmem_m, by omega, ?_⟩
            intro c1 hc1
            have hc1s : c1 ∈ (sortByDepth blocks.tree.children.toList).erase m :=
              (hperm.erase m).mem_iff.mpr hc1
            have hdecomp := List.dropLast_append_getLast? m hlast
            by_cases hlen : 2 ≤ (sortByDepth blocks.tree.children.toList).length
            · obtain ⟨second, hsec⟩ : ∃ s,
                  (sortByDepth blocks.tree.children.toList).dropLast.getLast? = some s := by
                apply Option.isSome_iff_exists.mp
                apply List.getLast?_isSome.mpr
                intro hdl
                have := congrArg List.length hdl
                rw [List.length_dropLast] at this
                simp at this
                omega
              have hgap : ¬(depth m - depth second < blocks.stability_threshold) := by
                intro hlt
                apply h2
                unfold second_deepest_check
                rw [if_pos hlen, get_second_eq _ hlen, hsec]
                exact decide_eq_true hlt
              have hdl_sorted : List.Sorted depthLe
                  (sortByDepth blocks.tree.children.toList).dropLast :=
                List.Pairwise.sublist (List.dropLast_sublist _) hsorted
              have hdl_le : ∀ x ∈ (sortByDepth blocks.tree.children.toList).dropLast,
                  depth x ≤ depth second :=
                sorted_le_getLast _ hdl_sorted second hsec
              have hsec_le : depth second ≤ depth m :=
                sorted_le_getLast _ hsorted m hlast second
                  ((List.dropLast_sublist _).mem (List.mem_of_getLast?_eq_some hsec))
              by_cases hmdl : m ∈ (sortByDepth blocks.tree.children.toList).dropLast
              · have h5 := hdl_le m hmdl
                rw [← hdecomp, List.erase_append_left _ hmdl] at hc1s
                rcases List.mem_append.mp hc1s with hA | hB
                · have := hdl_le c1 (List.mem_of_mem_erase hA)
                  omega
                · have hc1m : c1 = m := List.mem_singleton.mp hB
                  subst hc1m
                  omega
              · rw [← hdecomp, List.erase_append_right _ hmdl] at hc1s
                simp only [List.erase_cons_head, List.append_nil] at hc1s
                have := hdl_le c1 hc1s
                omega
            · have hlen1 : (sortByDepth blocks.tree.children.toList).length = 1 := by
                have hpos : (sortByDepth blocks.tree.children.toList) ≠ [] := by
                  intro hdl
                  rw [hdl] at hlast
                  cases hlast
                have := List.length_pos.mpr hpos
                omega
              have hs1 : sortByDepth blocks.tree.children.toList = [m] := by
                cases hsx : sortByDepth blocks.tree.children.toList with
                | nil => rw [hsx] at hlast; cases hlast
                | cons a t =>
                  cases t with
                  | nil =>
                    rw [hsx] at hlast
                    simp only [List.getLast?_singleton, Option.some.injEq] at hlast
                    rw [hlast]
                  | cons b t2 =>
                    rw [hsx] at hlen1
                    simp at hlen1
              rw [hs1] at hc1s
              simp at hc1s
          · intro _
            simp
        · intro b hb
          simp only [Option.some.injEq] at hb
          exact ⟨hb.symm, hmem_m, hle_m, rfl, rfl⟩
        · intro hnone
          exact absurd hnone (by simp)

theorem toList_inj {f1 f2 : BlockForest} (h : f1.toList = f2.toList) : f1 = f2 := by
  rw [← ofList_toList f1, ← ofList_toList f2, h]

theorem blockTree_ext (t1 t2 : BlockTree) (hr : t1.root = t2.root)
    (hc : t1.children = t2.children) : t1 = t2 := by
  cases t1
  cases t2
  simp only [BlockTree.root, BlockTree.children] at hr hc
  rw [hr, hc]

theorem unstableBlocks_ext (a b : UnstableBlocks)
    (h1 : a.stability_threshold = b.stability_threshold) (h2 : a.tree = b.tree)
    (h3 : a.tx_out_cache = b.tx_out_cache) : a = b := by
  cases a
  cases b
  dsimp only at h1 h2 h3
  rw [h1, h2, h3]

instance (t : Nat) (cs : List BlockTree) : Decidable (stabilityCondition t cs) := by
  unfold stabilityCondition
  infer_instance

/-- Claim C1. Pop returns the old anchor block exactly when the anchor has
a child C with depth at least the stability threshold whose depth exceeds
that of every sibling by at least the threshold; on success the returned
block is the old anchor, the new forest is a child subtree of maximal
depth (its root the new anchor, every sibling subtree discarded), the
threshold is kept, and the cache entries created by the old anchor block
are evicted while all others are kept. -/
theorem claim_C1 (blocks : UnstableBlocks) :
    ((pop blocks).2 ≠ none ↔
       stabilityCondition blocks.stability_threshold blocks.tree.children.toList) ∧
    (∀ b, (pop blocks).2 = some b →
       b = blocks.tree.root ∧
       (pop blocks).1.tree ∈ blocks.tree.children.toList ∧
       (∀ c ∈ blocks.tree.children.toList, depth c ≤ depth (pop blocks).1.tree) ∧
       (pop blocks).1.stability_threshold = blocks.stability_threshold ∧
       (pop blocks).1.tx_out_cache.entries =
         blocks.tx_out_cache.entries.filter
           (fun e => e.createdBy != blocks.tree.root.block_hash) ∧
       (pop blocks).1.tx_out_cache.block_heights = blocks.tx_out_cache.block_heights) := by
  have hsp := pop_spec blocks
  refine ⟨hsp.1, ?_⟩
  intro b hb
  have h2 := hsp.2.1 b hb
  refine ⟨h2.1, h2.2.1, h2.2.2.1, h2.2.2.2.1, ?_, ?_⟩
  · rw [h2.2.2.2.2]
    rfl
  · rw [h2.2.2.2.2]
    rfl

/-- Concrete store for the pop witnesses: one stable child of depth one at
threshold one. -/
def exC1 : UnstableBlocks :=
  ⟨1, BlockTree.mk ⟨9, 1, []⟩ (BlockForest.cons (BlockTree.mk ⟨1, 2, []⟩ .nil) .nil), ⟨[], []⟩⟩

/-- Witness for claim C1: the single depth-one child is stable at threshold
one, the anchor is returned and the child becomes the forest. -/
theorem claim_C1_witness :
    (⟨9, 1, []⟩ : Block) = exC1.tree.root ∧
    (pop exC1).1.tree ∈ exC1.tree.children.toList ∧
    (∀ c ∈ exC1.tree.children.toList, depth c ≤ depth (pop exC1).1.tree) ∧
    (pop exC1).1.stability_threshold = exC1.stability_threshold ∧
    (pop exC1).1.tx_out_cache.entries =
      exC1.tx_out_cache.entries.filter
        (fun e => e.createdBy != exC1.tree.root.block_hash) ∧
    (pop exC1).1.tx_out_cache.block_heights = exC1.tx_out_cache.block_heights :=
  (claim_C1 exC1).2 ⟨9, 1, []⟩ (by decide)

/-- Concrete store for the C2 counterexample: two children of depths two
and one, in that insertion order, at a threshold neither can reach. -/
def exC2 : UnstableBlocks :=
  ⟨10,
   BlockTree.mk ⟨9, 1, []⟩
     (BlockForest.cons
        (BlockTree.mk ⟨1, 2, []⟩ (BlockForest.cons (BlockTree.mk ⟨2, 3, []⟩ .nil) .nil))
        (BlockForest.cons (BlockTree.mk ⟨1, 4, []⟩ .nil) .nil)),
   ⟨[], []⟩⟩

/-- Counterexample to claim C2 as stated: the failed pop returns nothing
but does not leave the forest unchanged - the anchor's children have been
reordered by the stable sort by depth, so the store differs from the one
before the call. -/
theorem claim_C2_counterexample :
    (pop exC2).2 = none ∧ (pop exC2).1 ≠ exC2 := by
  decide

/-- Claim C2, amended: when the stability condition fails, pop returns
nothing and preserves the anchor, the threshold, the cache and the multiset
of child subtrees, but the children are left stably sorted by ascending
depth (their order can change); from the resulting store a failed pop is a
true no-op, so failed pops are idempotent from the first call on. -/
theorem claim_C2 (blocks : UnstableBlocks)
    (hns : ¬ stabilityCondition blocks.stability_threshold blocks.tree.children.toList) :
    (pop blocks).2 = none ∧
    (pop blocks).1.tree.root = blocks.tree.root ∧
    (pop blocks).1.stability_threshold = blocks.stability_threshold ∧
    (pop blocks).1.tx_out_cache = blocks.tx_out_cache ∧
    (pop blocks).1.tree.children.toList = sortByDepth blocks.tree.children.toList ∧
    List.Perm (pop blocks).1.tree.children.toList blocks.tree.children.toList ∧
    pop ((pop blocks).1) = ((pop blocks).1, none) := by
  have hsp := pop_spec blocks
  have hfail : (pop blocks).2 = none := by
    by_contra h
    exact hns (hsp.1.mp h)
  have hp3 := hsp.2.2 hfail
  refine ⟨hfail, hp3.1, hp3.2.2.1, hp3.2.2.2, hp3.2.1, ?_, ?_⟩
  · rw [hp3.2.1]
    exact sortByDepth_perm _
  · have hsorted1 : List.Sorted depthLe (pop blocks).1.tree.children.toList := by
      rw [hp3.2.1]
      exact sortByDepth_sorted _
    have hns1 : ¬ stabilityCondition (pop blocks).1.stability_threshold
        (pop blocks).1.tree.children.toList := by
      rw [hp3.2.2.1]
      intro hcond
      apply hns
      refine (stabilityCondition_perm ?_).mp hcond
      rw [hp3.2.1]
      exact sortByDepth_perm _
    have hsp1 := pop_spec (pop blocks).1
    have hfail1 : (pop (pop blocks).1).2 = none := by
      by_contra h
      exact hns1 (hsp1.1.mp h)
    have hq3 := hsp1.2.2 hfail1
    have hchildren : (pop (pop blocks).1).1.tree.children = (pop blocks).1.tree.children := by
      apply toList_inj
      rw [hq3.2.1, sortByDepth_of_sorted hsorted1]
    have htree : (pop (pop blocks).1).1.tree = (pop blocks).1.tree :=
      blockTree_ext _ _ hq3.1 hchildren
    have hstate : (pop (pop blocks).1).1 = (pop blocks).1 :=
      unstableBlocks_ext _ _ hq3.2.2.1 htree hq3.2.2.2
    have hpair : pop ((pop blocks).1) = ((pop (pop blocks).1).1, (pop (pop blocks).1).2) := rfl
    rw [hpair, hstate, hfail1]

/-- Witness for claim C2 at the concrete two-children store. -/
theorem claim_C2_witness :
    (pop exC2).2 = none ∧
    (pop exC2).1.tree.root = exC2.tree.root ∧
    (pop exC2).1.stability_threshold = exC2.stability_threshold ∧
    (pop exC2).1.tx_out_cache = exC2.tx_out_cache ∧
    (pop exC2).1.tree.children.toList = sortByDepth exC2.tree.children.toList ∧
    List.Perm (pop exC2).1.tree.children.toList exC2.tree.children.toList ∧
    pop ((pop exC2).1) = ((pop exC2).1, none) :=
  claim_C2 exC2 (by decide)

/-! Lemmas about get_main_chain (claim C3). -/

mutual
theorem blockchains_ne_nil : ∀ t : BlockTree, blockchains t ≠ []
  | .mk root .nil => by simp [blockchains]
  | .mk root (.cons c cs) => by
    rw [blockchains]
    intro h
    exact blockchainsForest_cons_ne_nil c cs (List.map_eq_nil_iff.mp h)
theorem blockchainsForest_cons_ne_nil : ∀ (c : BlockTree) (cs : BlockForest),
    blockchainsForest (.cons c cs) ≠ []
  | c, cs => by
    rw [blockchainsForest]
    intro h
    exact blockchains_ne_nil c (List.append_eq_nil.mp h).1
end

theorem blockchains_head (t : BlockTree) (c : List Block) (hc : c ∈ blockchains t) :
    c.head? = some t.root := by
  cases t with
  | mk root cs =>
    cases cs with
    | nil =>
      simp only [blockchains, List.mem_singleton] at hc
      rw [hc]
      rfl
    | cons c1 cs1 =>
      rw [blockchains] at hc
      obtain ⟨d, _, rfl⟩ := List.mem_map.mp hc
      rfl

theorem foldl_max_ge_acc :
    ∀ (l : List (List Block)) (acc : Nat),
    acc ≤ List.foldl (fun a bc => max a bc.length) acc l
  | [], _ => le_refl _
  | c :: t, acc =>
    le_trans (Nat.le_max_left acc c.length) (foldl_max_ge_acc t (max acc c.length))

theorem le_foldl_max :
    ∀ (l : List (List Block)) (acc : Nat) (c : List Block), c ∈ l →
    c.length ≤ List.foldl (fun a bc => max a bc.length) acc l
  | d :: t, acc, c, hc => by
    rcases List.mem_cons.mp hc with rfl | hc2
    · exact le_trans (Nat.le_max_right acc c.length) (foldl_max_ge_acc t _)
    · exact le_foldl_max t (max acc d.length) c hc2

theorem foldl_max_cases :
    ∀ (l : List (List Block)) (acc : Nat),
    List.foldl (fun a bc => max a bc.length) acc l = acc ∨
    ∃ c ∈ l, List.foldl (fun a bc => max a bc.length) acc l = c.length
  | [], acc => Or.inl rfl
  | c :: t, acc => by
    rw [List.foldl_cons]
    rcases foldl_max_cases t (max acc c.length) with h | ⟨d, hd, he⟩
    · rcases Nat.le_total acc c.length with hm | hm
      · exact Or.inr ⟨c, List.mem_cons_self c t, by rw [h, Nat.max_eq_right hm]⟩
      · exact Or.inl (by rw [h, Nat.max_eq_left hm])
    · exact Or.inr ⟨d, List.mem_cons_of_mem c hd, he⟩

theorem le_maxChainLen (chains : List (List Block)) (c : List Block) (hc : c ∈ chains) :
    c.length ≤ maxChainLen chains :=
  le_foldl_max chains 0 c hc

/-- The expected pointwise reading of the lock-step walk: element k of the
result is element h + k of the reference chain, and every other chain
agrees with the reference on the identifier there. -/
theorem lockstep_get :
    ∀ (fuel h : Nat) (c0 : List Block) (rest : List (List Block)) (k : Nat),
    k < (lockstep c0 rest h fuel).length →
    (lockstep c0 rest h fuel).get? k = c0.get? (h + k) ∧
    ∀ chain ∈ rest,
      (chain.get? (h + k)).map Block.block_hash = (c0.get? (h + k)).map Block.block_hash
  | 0, h, c0, rest, k, hk => by simp [lockstep] at hk
  | fuel + 1, h, c0, rest, k, hk => by
    rw [lockstep] at hk ⊢
    cases hc : c0.get? h with
    | none => rw [hc] at hk; simp at hk
    | some block =>
      rw [hc] at hk
      dsimp only at hk ⊢
      by_cases htest : rest.all (fun chain =>
          match chain.get? h with
          | some b1 => b1.block_hash == block.block_hash
          | none => false) = true
      · rw [if_pos htest] at hk ⊢
        cases k with
        | zero =>
          refine ⟨hc.symm, ?_⟩
          intro chain hchain
          have h1 := List.all_eq_true.mp htest chain hchain
          show (chain.get? h).map Block.block_hash = (c0.get? h).map Block.block_hash
          rw [hc]
          cases hch : chain.get? h with
          | none => rw [hch] at h1; cases h1
          | some b1 =>
            rw [hch] at h1
            simp only [Option.map_some']
            rw [beq_iff_eq.mp h1]
        | succ k1 =>
          have hrec := lockstep_get fuel (h + 1) c0 rest k1
            (by simpa using Nat.lt_of_succ_lt_succ hk)
          have harith : h + 1 + k1 = h + (k1 + 1) := by omega
          rw [harith] at hrec
          exact ⟨hrec.1, hrec.2⟩
      · rw [if_neg htest] at hk
        simp at hk

theorem lockstep_length_le :
    ∀ (fuel h : Nat) (c0 : List Block) (rest : List (List Block)),
    (lockstep c0 rest h fuel).length ≤ fuel
  | 0, h, c0, rest => by simp [lockstep]
  | fuel + 1, h, c0, rest => by
    rw [lockstep]
    cases hc : c0.get? h with
    | none => simp
    | some block =>
      dsimp only
      split
      · simpa using Nat.succ_le_succ (lockstep_length_le fuel (h + 1) c0 rest)
      · simp

/-- When the lock-step walk stops before exhausting its fuel, the
reference chain is exhausted or some chain disagrees at the first position
not covered. -/
theorem lockstep_stop :
    ∀ (fuel h : Nat) (c0 : List Block) (rest : List (List Block)),
    (lockstep c0 rest h fuel).length < fuel →
    c0.get? (h + (lockstep c0 rest h fuel).length) = none ∨
    ∃ chain ∈ rest,
      (chain.get? (h + (lockstep c0 rest h fuel).length)).map Block.block_hash ≠
        (c0.get? (h + (lockstep c0 rest h fuel).length)).map Block.block_hash
  | 0, h, c0, rest, hlt => by simp at hlt
  | fuel + 1, h, c0, rest, hlt => by
    rw [lockstep] at hlt ⊢
    cases hc : c0.get? h with
    | none =>
      rw [hc] at hlt
      dsimp only at hlt ⊢
      simp only [List.length_nil, Nat.add_zero]
      exact Or.inl hc
    | some block =>
      rw [hc] at hlt
      dsimp only at hlt ⊢
      by_cases htest : rest.all (fun chain =>
          match chain.get? h with
          | some b1 => b1.block_hash == block.block_hash
          | none => false) = true
      · rw [if_pos htest] at hlt ⊢
        simp only [List.length_cons] at hlt ⊢
        have hrec := lockstep_stop fuel (h + 1) c0 rest (Nat.lt_of_succ_lt_succ hlt)
        have harith : h + 1 + (lockstep c0 rest (h + 1) fuel).length =
            h + ((lockstep c0 rest (h + 1) fuel).length + 1) := by omega
        rw [harith] at hrec
        exact hrec
      · rw [if_neg htest] at hlt ⊢
        simp only [List.length_nil, Nat.add_zero]
        refine Or.inr ?_
        have hex : ∃ chain ∈ rest, ¬((fun chain =>
            match chain.get? h with
            | some b1 => b1.block_hash == block.block_hash
            | none => false) chain = true) := by
          by_contra hall
          push_neg at hall
          exact htest (List.all_eq_true.mpr fun x hx => hall x hx)
        obtain ⟨chain, hchain, hfalse⟩ := hex
        dsimp only at hfalse
        refine ⟨chain, hchain, ?_⟩
        cases hch : chain.get? h with
        | none => rw [hc]; simp
        | some b1 =>
          rw [hch] at hfalse
          rw [hc]
          simp only [Option.map_some', ne_eq, Option.some.injEq]
          intro he
          exact hfalse (by simp [he])

/-- The spec's reading of "agreed-upon prefix": p agrees block-by-block in
identifier with chain c on all of p's positions (and fits inside c). -/
def prefAgrees (p c : List Block) : Prop :=
  p.length ≤ c.length ∧
  ∀ k, k < p.length →
    (p.get? k).map Block.block_hash = (c.get? k).map Block.block_hash

instance (p c : List Block) : Decidable (prefAgrees p c) :=
  inferInstanceAs (Decidable (p.length ≤ c.length ∧
    ∀ k, k < p.length →
      (p.get? k).map Block.block_hash = (c.get? k).map Block.block_hash))

/-- The chains kept by get_main_chain: the anchored blockchains of maximal
length. -/
def longestChains (blocks : UnstableBlocks) : List (List Block) :=
  (blockchains blocks.tree).filter
    (fun bc => bc.length == maxChainLen (blockchains blocks.tree))

/-- A path-shaped block tree: the given block followed by the given blocks,
each the only child of the previous one (the "single unbroken path" of the
claim). -/
def mkChain (b : Block) : List Block → BlockTree
  | [] => .mk b .nil
  | b1 :: bs => .mk b (.cons (mkChain b1 bs) .nil)

theorem mem_longestChains (blocks : UnstableBlocks) (c : List Block)
    (hc : c ∈ longestChains blocks) :
    c ∈ blockchains blocks.tree ∧
      c.length = maxChainLen (blockchains blocks.tree) := by
  have h := List.mem_filter.mp hc
  exact ⟨h.1, by simpa using h.2⟩

theorem longestChains_ne_nil (blocks : UnstableBlocks) :
    longestChains blocks ≠ [] := by
  rcases foldl_max_cases (blockchains blocks.tree) 0 with h0 | ⟨c, hc, he⟩
  · exfalso
    cases hbc : blockchains blocks.tree with
    | nil => exact blockchains_ne_nil blocks.tree hbc
    | cons a l =>
      have ha : a ∈ blockchains blocks.tree := by
        rw [hbc]
        exact List.mem_cons_self _ _
      have hlen := le_maxChainLen (blockchains blocks.tree) a ha
      have hmax0 : maxChainLen (blockchains blocks.tree) = 0 := h0
      have hha := blockchains_head blocks.tree a ha
      have hanil : a ≠ [] := by
        intro h
        rw [h] at hha
        simp at hha
      have hapos : 0 < a.length := List.length_pos.mpr hanil
      omega
  · have hcin : c ∈ longestChains blocks := by
      apply List.mem_filter.mpr
      exact ⟨hc, by simp [maxChainLen, he]⟩
    exact List.ne_nil_of_mem hcin

theorem get_main_chain_eq (blocks : UnstableBlocks) (b0 : Block)
    (tl : List Block) (rest : List (List Block))
    (h : longestChains blocks = (b0 :: tl) :: rest) :
    get_main_chain blocks =
      b0 :: lockstep (b0 :: tl) rest 1
        (maxChainLen (blockchains blocks.tree) - 1) := by
  have h2 : (blockchains blocks.tree).filter
      (fun bc => bc.length == maxChainLen (blockchains blocks.tree)) =
      (b0 :: tl) :: rest := h
  unfold get_main_chain
  dsimp only
  rw [h2]

/-- get_main_chain starts at the anchor, agrees in identifier with every
longest chain on all its positions, and is the longest such prefix. -/
theorem get_main_chain_spec (blocks : UnstableBlocks) :
    (get_main_chain blocks).head? = some blocks.tree.root ∧
    (∀ c ∈ longestChains blocks, prefAgrees (get_main_chain blocks) c) ∧
    (∀ p : List Block, (∀ c ∈ longestChains blocks, prefAgrees p c) →
      p.length ≤ (get_main_chain blocks).length) := by
  obtain ⟨c0, rest, hlc⟩ : ∃ c0 rest, longestChains blocks = c0 :: rest := by
    cases hl : longestChains blocks with
    | nil => exact absurd hl (longestChains_ne_nil blocks)
    | cons a l => exact ⟨a, l, rfl⟩
  have hc0mem : c0 ∈ longestChains blocks := by
    rw [hlc]
    exact List.mem_cons_self _ _
  obtain ⟨hc0bc, hc0len⟩ := mem_longestChains blocks c0 hc0mem
  have hhead := blockchains_head blocks.tree c0 hc0bc
  obtain ⟨b0, tl, rfl⟩ : ∃ b0 tl, c0 = b0 :: tl := by
    cases c0 with
    | nil => simp at hhead
    | cons a l => exact ⟨a, l, rfl⟩
  have hb0 : b0 = blocks.tree.root := by simpa using hhead
  have hgmc := get_main_chain_eq blocks b0 tl rest hlc
  have hLpos : 1 ≤ maxChainLen (blockchains blocks.tree) := by
    rw [← hc0len, List.length_cons]
    omega
  have hWlen := lockstep_length_le
    (maxChainLen (blockchains blocks.tree) - 1) 1 (b0 :: tl) rest
  have hreslen : (get_main_chain blocks).length ≤
      maxChainLen (blockchains blocks.tree) := by
    rw [hgmc]
    simp only [List.length_cons]
    omega
  refine ⟨?_, ?_, ?_⟩
  · rw [hgmc]
    simp [hb0]
  · intro c hc
    obtain ⟨hcbc, hclen⟩ := mem_longestChains blocks c hc
    have hchead := blockchains_head blocks.tree c hcbc
    have hcor : c = b0 :: tl ∨ c ∈ rest := by
      rw [hlc] at hc
      exact List.mem_cons.mp hc
    refine ⟨by rw [hclen]; exact hreslen, ?_⟩
    intro k hk
    rw [hgmc] at hk ⊢
    cases k with
    | zero =>
      rw [List.get?_cons_zero, List.get?_zero, hchead, hb0]
    | succ k1 =>
      have hk1 : k1 < (lockstep (b0 :: tl) rest 1
          (maxChainLen (blockchains blocks.tree) - 1)).length := by
        simp only [List.length_cons] at hk
        omega
      obtain ⟨hw1, hw2⟩ := lockstep_get
        (maxChainLen (blockchains blocks.tree) - 1) 1 (b0 :: tl) rest k1 hk1
      have harith : 1 + k1 = k1 + 1 := by omega
      rw [harith] at hw1
      rw [List.get?_cons_succ, hw1]
      rcases hcor with rfl | hcr
      · rfl
      · have h2 := hw2 c hcr
        rw [harith] at h2
        exact h2.symm
  · intro p hp
    by_contra hcon
    push_neg at hcon
    have hpc0 := hp (b0 :: tl) hc0mem
    have hplen : p.length ≤ maxChainLen (blockchains blocks.tree) := by
      rw [← hc0len]
      exact hpc0.1
    have hmlen : (get_main_chain blocks).length =
        (lockstep (b0 :: tl) rest 1
          (maxChainLen (blockchains blocks.tree) - 1)).length + 1 := by
      rw [hgmc]
      simp
    have hstoplt : (lockstep (b0 :: tl) rest 1
        (maxChainLen (blockchains blocks.tree) - 1)).length <
        maxChainLen (blockchains blocks.tree) - 1 := by omega
    rcases lockstep_stop (maxChainLen (blockchains blocks.tree) - 1) 1
        (b0 :: tl) rest hstoplt with hnone | ⟨chain, hchain, hne⟩
    · have hn2 := List.get?_eq_none.mp hnone
      have hlen0 : (b0 :: tl).length =
          maxChainLen (blockchains blocks.tree) := hc0len
      omega
    · have hmp : 1 + (lockstep (b0 :: tl) rest 1
          (maxChainLen (blockchains blocks.tree) - 1)).length < p.length := by
        omega
      have ha := hpc0.2 _ hmp
      have hchmem : chain ∈ longestChains blocks := by
        rw [hlc]
        exact List.mem_cons_of_mem _ hchain
      have hb := (hp chain hchmem).2 _ hmp
      rw [ha] at hb
      exact hne hb.symm

theorem drop_cons_of_get : ∀ (c0 : List Block) (h : Nat) (block : Block),
    c0.get? h = some block → c0.drop h = block :: c0.drop (h + 1)
  | [], h, block, hh => by simp at hh
  | a :: t, 0, block, hh => by
    simp only [List.get?_cons_zero, Option.some.injEq] at hh
    rw [← hh]
    rfl
  | a :: t, h + 1, block, hh => by
    rw [List.get?_cons_succ] at hh
    have hrec := drop_cons_of_get t h block hh
    rw [List.drop_succ_cons, List.drop_succ_cons, hrec]

/-- With no other chain to compare against, the lock-step walk just copies
the reference chain from the start height for as long as the fuel lasts. -/
theorem lockstep_nil_rest : ∀ (fuel h : Nat) (c0 : List Block),
    lockstep c0 [] h fuel = List.take fuel (c0.drop h)
  | 0, h, c0 => by simp [lockstep]
  | fuel + 1, h, c0 => by
    rw [lockstep]
    cases hc : c0.get? h with
    | none =>
      dsimp only
      have hlen := List.get?_eq_none.mp hc
      rw [List.drop_eq_nil_of_le hlen]
      simp
    | some block =>
      dsimp only
      simp only [List.all_nil, if_true]
      rw [lockstep_nil_rest fuel (h + 1) c0, drop_cons_of_get c0 h block hc,
        List.take_succ_cons]

theorem blockchains_mkChain : ∀ (b : Block) (bs : List Block),
    blockchains (mkChain b bs) = [b :: bs]
  | b, [] => by rw [mkChain, blockchains]
  | b, b1 :: bs => by
    rw [mkChain, blockchains, blockchainsForest, blockchainsForest,
      blockchains_mkChain b1 bs]
    rfl

/-- On a path-shaped tree, get_main_chain returns the whole path. -/
theorem get_main_chain_single (t : Nat) (cache : TxOutCache) (b : Block)
    (bs : List Block) :
    get_main_chain (UnstableBlocks.mk t (mkChain b bs) cache) = b :: bs := by
  have hbc : blockchains (UnstableBlocks.mk t (mkChain b bs) cache).tree =
      [b :: bs] := blockchains_mkChain b bs
  have hmax : maxChainLen
      (blockchains (UnstableBlocks.mk t (mkChain b bs) cache).tree) =
      bs.length + 1 := by
    rw [hbc]
    simp [maxChainLen]
  have hlc : longestChains (UnstableBlocks.mk t (mkChain b bs) cache) =
      [b :: bs] := by
    unfold longestChains
    rw [hbc]
    simp [maxChainLen]
  have h := get_main_chain_eq (UnstableBlocks.mk t (mkChain b bs) cache)
    b bs [] hlc
  rw [h, hmax, lockstep_nil_rest]
  simp

/-- A forest with two sibling branches of equal length under the anchor:
the contested-tip example of the claim. -/
def exC3fork : UnstableBlocks :=
  UnstableBlocks.mk 2
    (.mk (Block.mk 0 1 [])
      (.cons (.mk (Block.mk 1 2 []) .nil)
        (.cons (.mk (Block.mk 1 3 []) .nil) .nil)))
    (TxOutCache.mk [] [])

/-- C3: get_main_chain keeps exactly the anchored chains of maximal length
and returns the longest block-by-block agreed prefix: the result starts at
the anchor (so it never fails), it agrees in identifier with every longest
chain at every position, any candidate agreeing with all longest chains is
no longer than it; on a single unbroken path it returns all the blocks of
the path, and on two sibling branches of equal length it returns only the
anchor. -/
theorem claim_C3 (blocks : UnstableBlocks) :
    (get_main_chain blocks).head? = some blocks.tree.root ∧
    (∀ c ∈ longestChains blocks, prefAgrees (get_main_chain blocks) c) ∧
    (∀ p : List Block, (∀ c ∈ longestChains blocks, prefAgrees p c) →
      p.length ≤ (get_main_chain blocks).length) ∧
    (∀ (t : Nat) (cache : TxOutCache) (b : Block) (bs : List Block),
      get_main_chain (UnstableBlocks.mk t (mkChain b bs) cache) = b :: bs) ∧
    get_main_chain exC3fork = [exC3fork.tree.root] := by
  obtain ⟨h1, h2, h3⟩ := get_main_chain_spec blocks
  exact ⟨h1, h2, h3,
    fun t cache b bs => get_main_chain_single t cache b bs, by decide⟩

/-- C3 witness: the claim applied to the concrete fork example, with the
maximality part instantiated at the concrete candidate prefix made of the
anchor alone, its agreement hypothesis discharged by evaluation. -/
theorem claim_C3_witness :
    (get_main_chain exC3fork).head? = some exC3fork.tree.root ∧
    (Block.mk 0 1 [] :: []).length ≤ (get_main_chain exC3fork).length :=
  ⟨(claim_C3 exC3fork).1,
    (claim_C3 exC3fork).2.2.1 (Block.mk 0 1 [] :: []) (by decide)⟩

end Btc